import Mathlib

/-!
Shallow embedding of the json2csv conversion engine
(`src/json2csv/converter.py`, `src/json2csv/utils.py`).

Python strings are modelled as lists of characters (`Str`), Python dicts as
insertion-ordered association lists with the update semantics of
`d[k] = v` (`dictSet`), and JSON values as the inductive type `Json`.
File input and output is factored out: each engine function is embedded as the
pure function from its in-memory arguments to the rows/headers it would write.
-/

/-- Python strings, as lists of characters. -/
abbrev Str := List Char

/-- Shorthand to write a `Str` from a Lean string literal. -/
def cs (x : String) : Str := x.data

/-- JSON values as parsed by Python's `json.load`: dicts are insertion-ordered
association lists (keys unique in real Python dicts); numbers are modelled as
integers (the engine never computes with numeric values, it only passes them
through, so one number representative suffices). -/
inductive Json where
  | null
  | bool (b : Bool)
  | num (n : Int)
  | str (t : Str)
  | arr (elems : List Json)
  | obj (fields : List (Str × Json))

/-- `isinstance(value, dict)`. -/
def Json.isDict : Json → Bool
  | .obj _ => true
  | _ => false

/-- `isinstance(value, list)`. -/
def Json.isList : Json → Bool
  | .arr _ => true
  | _ => false

/-- `not isinstance(value, (dict, list))`: a scalar (incl. `None`). -/
def Json.isScalar (v : Json) : Bool := !(v.isDict || v.isList)

/-- A Python dict mapping strings to JSON values (a record of the input). -/
abbrev Obj := List (Str × Json)

/-- One output table row: a Python dict from column name to value. -/
abbrev Row := List (Str × Json)

/-- Python `d[k]` / `d.get(k)`: first binding of `k` (Python dicts have unique
keys, so first = only). -/
def dictget {α : Type} (d : List (Str × α)) (k : Str) : Option α :=
  (d.find? fun p => decide (p.1 = k)).map (·.2)

/-- Python `k in d`. -/
def dictMem {α : Type} (d : List (Str × α)) (k : Str) : Bool :=
  (dictget d k).isSome

/-- Python `d[k] = v`: update in place (keeping the key's position) when the
key is present, append a new binding otherwise. -/
def dictSet {α : Type} (d : List (Str × α)) (k : Str) (v : α) : List (Str × α) :=
  if dictMem d k then d.map fun p => if p.1 = k then (k, v) else p
  else d ++ [(k, v)]

/-- Mutating update `d[k] = f(d[k])` of an entry known to be present. -/
def dictModify {α : Type} (d : List (Str × α)) (k : Str) (f : α → α) :
    List (Str × α) :=
  d.map fun p => if p.1 = k then (p.1, f p.2) else p

/-- Python `set.add` on a set modelled as a duplicate-free list in insertion
order (the engine only ever sorts such sets or tests membership, so the
insertion order is never observable). -/
def insertSet (l : List Str) (k : Str) : List Str :=
  if k ∈ l then l else l ++ [k]

/-- Python string comparison `a <= b`: lexicographic on code points. -/
def strLe : Str → Str → Bool
  | [], _ => true
  | _ :: _, [] => false
  | a :: as, b :: bs => if a < b then true else if b < a then false else strLe as bs

/-- `strLe` as a relation, for use with `List.insertionSort`. -/
def strLeP (a b : Str) : Prop := strLe a b = true

instance : DecidableRel strLeP := fun a b =>
  inferInstanceAs (Decidable (strLe a b = true))

/-- Python `sorted(...)` on a collection of strings. -/
def sortStrs (l : List Str) : List Str := List.insertionSort strLeP l

/-- Python `str(i)` for a nonnegative integer index. -/
def natStr (n : Nat) : Str := (Nat.repr n).data

/-- Column keys used by the normalization engine. -/
def idKey : Str := cs "id"

/-- The foreign-key column name. -/
def rootIdKey : Str := cs "root_id"

/-- The name of the root table/entity. -/
def rootKey : Str := cs "root"

mutual
/-- `_flatten(item, prefix)` from `flatten_json` (converter.py:54-68): the
mutable `result` dict is threaded as `res`.  At a scalar the trailing
character of the prefix is stripped (`prefix[:-1]`). -/
def flattenAux (sep : Str) (item : Json) (pre : Str) (res : List (Str × Json)) :
    List (Str × Json) :=
  match item with
  | .obj fields => flattenObjAux sep fields pre res
  | .arr xs => flattenArrAux sep xs 0 pre res
  | x => dictSet res (if pre.isEmpty then pre else pre.dropLast) x

/-- The dict branch of `_flatten`: iterate the items in order, recursing with
prefix `prefix + key + separator` (when `prefix` is empty Python builds
`key + separator`, which is the same string). -/
def flattenObjAux (sep : Str) (fields : List (Str × Json)) (pre : Str)
    (res : List (Str × Json)) : List (Str × Json) :=
  match fields with
  | [] => res
  | (k, v) :: rest => flattenObjAux sep rest pre (flattenAux sep v (pre ++ k ++ sep) res)

/-- The list branch of `_flatten`: enumerate elements; containers recurse with
`prefix + str(i) + separator`, scalars are written at `prefix + str(i)`. -/
def flattenArrAux (sep : Str) (xs : List Json) (i : Nat) (pre : Str)
    (res : List (Str × Json)) : List (Str × Json) :=
  match xs with
  | [] => res
  | v :: rest =>
    let res1 := if v.isDict || v.isList then flattenAux sep v (pre ++ natStr i ++ sep) res
      else dictSet res (pre ++ natStr i) v
    flattenArrAux sep rest (i + 1) pre res1
end

/-- `flatten_json(obj, separator)` (converter.py:41-71): flatten one record. -/
def flatten_json (obj : Obj) (sep : Str) : List (Str × Json) :=
  flattenObjAux sep obj [] []

example : flatten_json [(cs "a", .obj [(cs "b", .num 1)]), (cs "t", .arr [.str (cs "x"), .str (cs "y")])] (cs "/")
    = [(cs "a/b", .num 1), (cs "t/0", .str (cs "x")), (cs "t/1", .str (cs "y"))] := rfl

/-- The post-parse part of `read_json` (converter.py:29-38): a dict becomes a
one-element list, a list is used directly with no check of its elements, and
anything else raises `ValueError`.  File opening and JSON parsing are the I/O
boundary and are not modelled; the function takes the parsed root value. -/
def read_json (data : Json) : Except String (List Json) :=
  match data with
  | .obj fields => .ok [.obj fields]
  | .arr xs => .ok xs
  | _ => .error "ValueError: JSON data must be either a dictionary or a list of dictionaries"

/-- Whether an `Except` result is an error (an exception was raised). -/
def isErr {ε α : Type} : Except ε α → Bool
  | .error _ => true
  | .ok _ => false

/-- An entity definition built by `extract_entity_structure`: the `fields` set
(modelled as a duplicate-free list, sorted at the end of extraction) and the
`relations` dict. -/
structure Ent where
  fields : List Str
  rels : List (Str × Str)

/-- `entities[key]["fields"].add(sub_key)` for every scalar-valued `sub_key`
of a nested object (converter.py:132-134 and 140-142). -/
def extAddFields (fs : List Str) (sub : Obj) : List Str :=
  sub.foldl (fun acc kv => if kv.2.isScalar then insertSet acc kv.1 else acc) fs

/-- Processing of one `(key, value)` pair of one record inside the first pass
of `extract_entity_structure` (converter.py:127-147). -/
def extStep (es : List (Str × Ent)) (k : Str) (v : Json) : List (Str × Ent) :=
  match v with
  | .obj sub =>
    let es1 := if dictMem es k then es else es ++ [(k, ⟨[], []⟩)]
    dictModify es1 k fun e => { e with fields := extAddFields e.fields sub }
  | .arr (first :: _) =>
    match first with
    | .obj sub0 =>
      let es1 := if dictMem es k then es else es ++ [(k, ⟨[], []⟩)]
      let es2 := dictModify es1 k fun e => { e with fields := extAddFields e.fields sub0 }
      dictModify es2 rootKey fun e => { e with rels := dictSet e.rels k (cs "one_to_many") }
    | _ => dictModify es rootKey fun e => { e with fields := insertSet e.fields k }
  | _ => dictModify es rootKey fun e => { e with fields := insertSet e.fields k }

/-- `extract_entity_structure(json_data)` (converter.py:111-153): first pass
over all records and keys, then each entity's field set is sorted. -/
def extract_entity_structure (json_data : List Obj) : List (Str × Ent) :=
  let es := json_data.foldl
    (fun es item => item.foldl (fun es kv => extStep es kv.1 kv.2) es)
    [(rootKey, ⟨[], []⟩)]
  es.map fun p => (p.1, { p.2 with fields := sortStrs p.2.fields })

/-- One root-table row (converter.py:176-181): `{"id": i + 1}` extended with
every scalar top-level field of the record, where `row[key] = value`
overwrites the generated `id` if the record has a scalar `id` field. -/
def buildRootRow (i : Nat) (item : Obj) : Row :=
  item.foldl (fun row kv => if kv.2.isScalar then dictSet row kv.1 kv.2 else row)
    [(idKey, Json.num (Int.ofNat (i + 1)))]

/-- The root-table rows, one per record in order (`enumerate(json_data)`). -/
def rootRowsFrom : Nat → List Obj → List Row
  | _, [] => []
  | i, item :: rest => buildRootRow i item :: rootRowsFrom (i + 1) rest

/-- `root_data` of `convert_to_normalized_csvs` (converter.py:175-181). -/
def root_data (json_data : List Obj) : List Row :=
  rootRowsFrom 0 json_data

/-- One entity-table row (converter.py:198-202 and 206-210):
`{"id": len(entity_data)+1, "root_id": i+1}` then `row[field] = value[field]`
for every schema field present in the nested object — which overwrites the
generated `id`/`root_id` when the nested object carries such a field. -/
def buildEntRow (pk : Nat) (fk : Nat) (fs : List Str) (sub : Obj) : Row :=
  fs.foldl
    (fun row f => match dictget sub f with
      | some v => dictSet row f v
      | none => row)
    [(idKey, Json.num (Int.ofNat pk)), (rootIdKey, Json.num (Int.ofNat fk))]

/-- The fields of a JSON value known to be a dict.  In the one-to-many branch
Python iterates `sub_item.items()`; a non-dict array element would raise a
`TypeError` there (see `normWellTyped` below), so this default is only
reached on inputs on which the Python code crashes. -/
def Json.toObj : Json → Obj
  | .obj fields => fields
  | _ => []

/-- Processing of one record for one entity table (converter.py:193-210):
a dict value appends one row, a list value whose first element is a dict
appends one row per element, anything else contributes nothing. -/
def entRowsStep (fs : List Str) (ename : Str) (i : Nat) (item : Obj)
    (acc : List Row) : List Row :=
  match dictget item ename with
  | none => acc
  | some value =>
    match value with
    | .obj sub => acc ++ [buildEntRow (acc.length + 1) (i + 1) fs sub]
    | .arr (first :: rest) =>
      if first.isDict then
        (first :: rest).foldl
          (fun a sub => a ++ [buildEntRow (a.length + 1) (i + 1) fs sub.toObj]) acc
      else acc
    | _ => acc

/-- The `entity_data` loop over `enumerate(json_data)` for one entity. -/
def entRowsFrom (fs : List Str) (ename : Str) : Nat → List Obj → List Row → List Row
  | _, [], acc => acc
  | i, item :: rest, acc => entRowsFrom fs ename (i + 1) rest (entRowsStep fs ename i item acc)

/-- All rows of one entity table (converter.py:192-210). -/
def entData (fs : List Str) (ename : Str) (json_data : List Obj) : List Row :=
  entRowsFrom fs ename 0 json_data []

/-- `convert_to_normalized_csvs(json_data, output_dir)` (converter.py:157-214)
as the mapping from table name to row list: the root table first, then one
table per non-root entity in discovery order.  Each table is handed to
`write_csv`, which writes `{name}.csv` only when the row list is non-empty. -/
def convert_to_normalized_csvs (json_data : List Obj) : List (Str × List Row) :=
  (rootKey, root_data json_data) ::
    (extract_entity_structure json_data).filterMap fun p =>
      if p.1 = rootKey then none
      else some (p.1, entData p.2.fields p.1 json_data)

/-- Python `str(value)` as applied by `csv.writer` to a scalar cell:
`None` is written as the empty field, booleans as `True`/`False`, numbers in
decimal.  The engine only ever renders scalars in flattened mode; container
values (possible in normalized rows on adversarial inputs) would be written
via Python `repr`, whose exact text no claim depends on, so they are rendered
here as the empty string. -/
def pyStr : Json → Str
  | .null => []
  | .bool true => cs "True"
  | .bool false => cs "False"
  | .num n => (toString n).data
  | .str t => t
  | .arr _ => []
  | .obj _ => []

/-- One rendered CSV cell of `csv.DictWriter.writerow`: a missing key renders
as the empty field (`restval` defaults to the empty string). -/
def renderCell : Option Json → Str
  | none => []
  | some v => pyStr v

/-- The union of all row keys, built like Python's `set.update` over the rows
(insertion order; only membership is observable because the result is always
sorted before use).  This list is also exactly the row keys in first-seen
order, which is what the spec claims `write_csv` uses as the header. -/
def keyUnion (data : List Row) : List Str :=
  data.foldl (fun acc row => row.foldl (fun a kv => insertSet a kv.1) acc) []

/-- `write_csv(file_path, data)` (converter.py:218-240): `None` when no file
is written (empty data), otherwise the header line (sorted union of row keys)
and the rendered rows. -/
def write_csv (data : List Row) : Option (List Str × List (List Str)) :=
  if data.isEmpty then none
  else
    let headers := sortStrs (keyUnion data)
    some (headers, data.map fun row => headers.map fun h => renderCell (dictget row h))

/-- The header line of a `write_csv` result (`[]` when no file was written). -/
def headersOf : Option (List Str × List (List Str)) → List Str
  | none => []
  | some p => p.1

/-- `convert_to_flattened_csv(json_data, output_path, separator)`
(converter.py:75-108): flatten every record, sort the union of all flattened
keys as the header, and render one row per record with missing keys empty. -/
def convert_to_flattened_csv (json_data : List Obj) (sep : Str) :
    List Str × List (List Str) :=
  let flattened := json_data.map fun item => flatten_json item sep
  let headers := sortStrs (keyUnion flattened)
  (headers, flattened.map fun row => headers.map fun h => renderCell (dictget row h))

/-- The numeric value of a row's cell, when present and a number. -/
def getNumAt (row : Row) (k : Str) : Option Int :=
  (dictget row k).bind fun v => match v with
    | .num n => some n
    | _ => none

/-- How many bindings of a key a row carries (1 for a real Python dict). -/
def countKey (row : Row) (k : Str) : Nat :=
  row.countP fun kv => decide (kv.1 = k)

theorem dictget_cons {α : Type} (k0 : Str) (v0 : α) (d : List (Str × α)) (k : Str) :
    dictget ((k0, v0) :: d) k = if k0 = k then some v0 else dictget d k := by
  by_cases h : k0 = k <;> simp [dictget, List.find?_cons, h]

theorem dictget_append_of_isSome {α : Type} {d1 : List (Str × α)} {k : Str} {v : α}
    (d2 : List (Str × α)) (h : dictget d1 k = some v) :
    dictget (d1 ++ d2) k = some v := by
  induction d1 with
  | nil => simp [dictget] at h
  | cons p rest ih =>
    rcases p with ⟨k0, v0⟩
    rw [dictget_cons] at h
    rw [List.cons_append, dictget_cons]
    by_cases hk : k0 = k
    · simpa [hk] using h
    · simp only [hk, if_false] at h ⊢
      exact ih h

theorem dictget_append_of_none {α : Type} {d1 : List (Str × α)} {k : Str}
    (d2 : List (Str × α)) (h : dictget d1 k = none) :
    dictget (d1 ++ d2) k = dictget d2 k := by
  induction d1 with
  | nil => simp
  | cons p rest ih =>
    rcases p with ⟨k0, v0⟩
    rw [dictget_cons] at h
    rw [List.cons_append, dictget_cons]
    by_cases hk : k0 = k
    · simp [hk] at h
    · simp only [hk, if_false] at h ⊢
      exact ih h

theorem dictget_mapUpdate {α : Type} (d : List (Str × α)) (k : Str) (v : α) (k' : Str)
    (h : k' ≠ k) :
    dictget (d.map fun p => if p.1 = k then (k, v) else p) k' = dictget d k' := by
  induction d with
  | nil => simp
  | cons p rest ih =>
    rcases p with ⟨k0, v0⟩
    by_cases hk : k0 = k
    · subst hk
      simp only [List.map_cons, if_pos rfl]
      rw [dictget_cons, dictget_cons]
      rw [if_neg (fun hh => h hh.symm), if_neg (fun hh => h hh.symm)]
      exact ih
    · simp only [List.map_cons, if_neg hk]
      rw [dictget_cons, dictget_cons]
      by_cases h0 : k0 = k'
      · simp [h0]
      · simp only [h0, if_false]
        exact ih

theorem dictget_mapUpdate_self {α : Type} (d : List (Str × α)) (k : Str) (v : α)
    (h : dictMem d k = true) :
    dictget (d.map fun p => if p.1 = k then (k, v) else p) k = some v := by
  induction d with
  | nil => simp [dictMem, dictget] at h
  | cons p rest ih =>
    rcases p with ⟨k0, v0⟩
    by_cases hk : k0 = k
    · simp only [List.map_cons, hk, if_pos rfl]
      rw [dictget_cons]
      simp
    · simp only [List.map_cons, if_neg hk]
      rw [dictget_cons, if_neg hk]
      apply ih
      simp only [dictMem] at h ⊢
      rwa [dictget_cons, if_neg hk] at h

theorem dictget_dictSet_self {α : Type} (d : List (Str × α)) (k : Str) (v : α) :
    dictget (dictSet d k v) k = some v := by
  unfold dictSet
  by_cases h : dictMem d k = true
  · rw [if_pos h]
    exact dictget_mapUpdate_self d k v h
  · rw [if_neg h]
    have hn : dictget d k = none := by
      simp only [dictMem, Option.isSome_iff_exists] at h
      cases hd : dictget d k with
      | none => rfl
      | some w => exact absurd ⟨w, hd⟩ h
    rw [dictget_append_of_none _ hn, dictget_cons, if_pos rfl]

theorem dictget_dictSet_ne {α : Type} (d : List (Str × α)) (k : Str) (v : α)
    (k' : Str) (h : k' ≠ k) :
    dictget (dictSet d k v) k' = dictget d k' := by
  unfold dictSet
  by_cases hm : dictMem d k = true
  · rw [if_pos hm]
    exact dictget_mapUpdate d k v k' h
  · rw [if_neg hm]
    cases hd : dictget d k' with
    | some w => exact dictget_append_of_isSome _ hd
    | none =>
      rw [dictget_append_of_none _ hd, dictget_cons, if_neg (fun hh => h hh.symm)]
      rfl

theorem dictMem_false_iff {α : Type} (d : List (Str × α)) (k : Str) :
    dictMem d k = false ↔ ∀ kv ∈ d, kv.1 ≠ k := by
  induction d with
  | nil =>
    constructor
    · intro _ kv hm
      exact absurd hm (List.not_mem_nil kv)
    · intro _
      rfl
  | cons p rest ih =>
    rcases p with ⟨k0, v0⟩
    by_cases hk : k0 = k
    · simp only [dictMem, dictget_cons, if_pos hk]
      constructor
      · intro hfalse
        exact absurd hfalse (by simp)
      · intro hall
        exact absurd hk (hall (k0, v0) (List.mem_cons_self _ _))
    · simp only [dictMem, dictget_cons, if_neg hk]
      simp only [dictMem] at ih
      rw [ih]
      constructor
      · intro h kv hm
        rcases List.mem_cons.mp hm with he | hm2
        · rw [he]
          exact hk
        · exact h kv hm2
      · intro h kv hm
        exact h kv (List.mem_cons_of_mem _ hm)

theorem countKey_eq_zero_of_not_mem (d : Row) (k : Str) (h : dictMem d k = false) :
    countKey d k = 0 := by
  rw [countKey, List.countP_eq_zero]
  intro kv hm
  simpa using (dictMem_false_iff d k).mp h kv hm

theorem countKey_dictSet_preserved (d : Row) (k' : Str) (v : Json) (k : Str)
    (h : countKey d k = 1) : countKey (dictSet d k' v) k = 1 := by
  unfold dictSet
  by_cases hm : dictMem d k' = true
  · rw [if_pos hm]
    rw [countKey, List.countP_map]
    rw [countKey] at h
    rw [← h]
    apply List.countP_congr
    intro kv _
    by_cases hk : kv.1 = k'
    · simp [Function.comp, hk]
    · simp [Function.comp, hk]
  · rw [if_neg hm]
    by_cases hkk : k' = k
    · subst hkk
      have h0 := countKey_eq_zero_of_not_mem d k' (Bool.not_eq_true _ |>.mp hm)
      rw [h0] at h
      exact absurd h (by decide)
    · rw [countKey, List.countP_append]
      rw [countKey] at h
      simp [h, hkk]

theorem foldlPreserve {α β : Type} (P : α → Prop) (f : α → β → α) :
    ∀ (l : List β) (r : α), (∀ r' b, b ∈ l → P r' → P (f r' b)) → P r →
      P (l.foldl f r)
  | [], r, _, hr => hr
  | b :: rest, r, hstep, hr =>
    foldlPreserve P f rest (f r b)
      (fun r' b' hb' => hstep r' b' (List.mem_cons_of_mem b hb'))
      (hstep r b (List.mem_cons_self b rest) hr)

/-- Hypothesis: no record carries a scalar top-level `id` field (such a field
overwrites the generated root primary key, converter.py:177-180). -/
def noTopScalarId (jd : List Obj) : Bool :=
  jd.all fun item => item.all fun kv => !(decide (kv.1 = idKey) && kv.2.isScalar)

/-- Whether a value, seen as a nested entity occurrence, nowhere carries the
given key: for a dict its own keys, for a list the keys of its dict elements. -/
def objLacks (key : Str) : Json → Bool
  | .obj sub => !(dictMem sub key)
  | .arr xs => xs.all fun x => match x with
      | .obj sub => !(dictMem sub key)
      | _ => true
  | _ => true

/-- Hypothesis: no nested object (dict value or array element) of any record
carries the given key (`id` and `root_id` fields of nested objects overwrite
the generated keys, converter.py:199-201 and 207-209). -/
def noNestedKey (jd : List Obj) (key : Str) : Bool :=
  jd.all fun item => item.all fun kv => objLacks key kv.2

/-- Hypothesis: in every record, an array value whose first element is a dict
contains only dicts.  On other inputs `for field in sub_item` /
`sub_item[field]` raises `TypeError` in Python (converter.py:205-209), so the
conversion produces no output at all and the claims are moot. -/
def normWellTyped (jd : List Obj) : Bool :=
  jd.all fun item => item.all fun kv => match kv.2 with
    | .arr (x :: xs) => !x.isDict || xs.all Json.isDict
    | _ => true

theorem buildRootRow_id (i : Nat) (item : Obj)
    (h : ∀ kv ∈ item, kv.2.isScalar = true → kv.1 ≠ idKey) :
    dictget (buildRootRow i item) idKey = some (Json.num (Int.ofNat (i + 1))) := by
  unfold buildRootRow
  apply foldlPreserve (fun r => dictget r idKey = some (Json.num (Int.ofNat (i + 1))))
  · intro r kv hkv hr
    by_cases hs : kv.2.isScalar = true
    · rw [if_pos hs]
      rw [dictget_dictSet_ne _ _ _ _ (fun he => (h kv hkv hs) he.symm)]
      exact hr
    · rw [if_neg hs]
      exact hr
  · rw [dictget_cons, if_pos rfl]

theorem buildRootRow_countKey_id (i : Nat) (item : Obj) :
    countKey (buildRootRow i item) idKey = 1 := by
  unfold buildRootRow
  apply foldlPreserve (fun r => countKey r idKey = 1)
  · intro r kv _ hr
    by_cases hs : kv.2.isScalar = true
    · rw [if_pos hs]
      exact countKey_dictSet_preserved _ _ _ _ hr
    · rw [if_neg hs]
      exact hr
  · simp [countKey, List.countP_cons]

theorem buildEntRow_start_id (pk fk : Nat) :
    dictget [(idKey, Json.num (Int.ofNat pk)), (rootIdKey, Json.num (Int.ofNat fk))]
      idKey = some (Json.num (Int.ofNat pk)) := by
  rw [dictget_cons, if_pos rfl]

theorem buildEntRow_start_rootid (pk fk : Nat) :
    dictget [(idKey, Json.num (Int.ofNat pk)), (rootIdKey, Json.num (Int.ofNat fk))]
      rootIdKey = some (Json.num (Int.ofNat fk)) := by
  rw [dictget_cons, if_neg (by decide), dictget_cons, if_pos rfl]

theorem buildEntRow_key (pk fk : Nat) (fs : List Str) (sub : Obj) (k : Str) (w : Json)
    (hsub : dictget sub k = none)
    (hstart : dictget [(idKey, Json.num (Int.ofNat pk)),
      (rootIdKey, Json.num (Int.ofNat fk))] k = some w) :
    dictget (buildEntRow pk fk fs sub) k = some w := by
  unfold buildEntRow
  apply foldlPreserve (fun r => dictget r k = some w)
  · intro r f _ hr
    cases hd : dictget sub f with
    | none => exact hr
    | some v =>
      have hne : k ≠ f := by
        intro he
        rw [← he, hsub] at hd
        exact Option.noConfusion hd
      rw [dictget_dictSet_ne _ _ _ _ hne]
      exact hr
  · exact hstart

theorem buildEntRow_countKey (pk fk : Nat) (fs : List Str) (sub : Obj) (k : Str)
    (hstart : countKey [(idKey, Json.num (Int.ofNat pk)),
      (rootIdKey, Json.num (Int.ofNat fk))] k = 1) :
    countKey (buildEntRow pk fk fs sub) k = 1 := by
  unfold buildEntRow
  apply foldlPreserve (fun r => countKey r k = 1)
  · intro r f _ hr
    cases hd : dictget sub f with
    | none => exact hr
    | some v => exact countKey_dictSet_preserved _ _ _ _ hr
  · exact hstart

theorem strLe_refl (a : Str) : strLe a a = true := by
  induction a with
  | nil => rfl
  | cons x xs ih => simp [strLe, ih]

theorem strLe_total (a b : Str) : strLe a b = true ∨ strLe b a = true := by
  induction a generalizing b with
  | nil => exact Or.inl rfl
  | cons x xs ih =>
    cases b with
    | nil => exact Or.inr rfl
    | cons y ys =>
      rcases lt_trichotomy x y with h | h | h
      · left
        simp [strLe, h]
      · subst h
        rcases ih ys with h2 | h2
        · left
          simp [strLe, h2]
        · right
          simp [strLe, h2]
      · right
        simp [strLe, h]

theorem strLe_trans {a b c : Str} (h1 : strLe a b = true) (h2 : strLe b c = true) :
    strLe a c = true := by
  induction a generalizing b c with
  | nil => rfl
  | cons x xs ih =>
    cases b with
    | nil => exact absurd h1 (by simp [strLe])
    | cons y ys =>
      cases c with
      | nil => exact absurd h2 (by simp [strLe])
      | cons z zs =>
        simp only [strLe] at h1 h2 ⊢
        rcases lt_trichotomy x y with hxy | hxy | hxy
        · rcases lt_trichotomy y z with hyz | hyz | hyz
          · simp [lt_trans hxy hyz]
          · subst hyz
            simp [hxy]
          · rw [if_pos hyz, if_neg (lt_asymm hyz)] at h2
            exact absurd h2 (by simp)
        · subst hxy
          rcases lt_trichotomy x z with hyz | hyz | hyz
          · simp [hyz]
          · subst hyz
            rw [if_neg (lt_irrefl x), if_neg (lt_irrefl x)] at h1 h2 ⊢
            exact ih h1 h2
          · rw [if_neg (lt_asymm hyz), if_pos hyz] at h2
            exact absurd h2 (by simp)
        · rw [if_neg (lt_asymm hxy), if_pos hxy] at h1
          exact absurd h1 (by simp)

instance : IsTotal Str strLeP := ⟨fun a b => strLe_total a b⟩

instance : IsTrans Str strLeP := ⟨fun _ _ _ h1 h2 => strLe_trans h1 h2⟩

theorem sortStrs_sorted (l : List Str) : (sortStrs l).Pairwise strLeP :=
  List.sorted_insertionSort strLeP l

theorem sortStrs_perm (l : List Str) : (sortStrs l).Perm l :=
  List.perm_insertionSort strLeP l

theorem mem_insertSet {l : List Str} {k x : Str} :
    x ∈ insertSet l k ↔ x ∈ l ∨ x = k := by
  unfold insertSet
  by_cases h : k ∈ l
  · rw [if_pos h]
    constructor
    · exact Or.inl
    · intro hh
      rcases hh with hh | hh
      · exact hh
      · rwa [hh]
  · rw [if_neg h]
    simp

theorem nodup_insertSet {l : List Str} (k : Str) (h : l.Nodup) :
    (insertSet l k).Nodup := by
  unfold insertSet
  by_cases hm : k ∈ l
  · rwa [if_pos hm]
  · rw [if_neg hm]
    simpa [List.nodup_append, h] using hm

theorem dictMem_true_iff {α : Type} (d : List (Str × α)) (k : Str) :
    dictMem d k = true ↔ ∃ kv ∈ d, kv.1 = k := by
  constructor
  · intro h
    by_contra hno
    push_neg at hno
    have hf : dictMem d k = false := (dictMem_false_iff d k).mpr hno
    rw [h] at hf
    exact Bool.noConfusion hf
  · intro ⟨kv, hm, he⟩
    cases hb : dictMem d k
    · exact absurd he ((dictMem_false_iff d k).mp hb kv hm)
    · rfl

theorem mem_rowKeysFold (row : Row) :
    ∀ (acc : List Str) (x : Str),
      x ∈ row.foldl (fun a kv => insertSet a kv.1) acc ↔
        x ∈ acc ∨ ∃ kv ∈ row, kv.1 = x := by
  induction row with
  | nil =>
    intro acc x
    rw [List.foldl_nil]
    constructor
    · exact fun h => Or.inl h
    · intro h
      rcases h with h | ⟨kv, hm, _⟩
      · exact h
      · exact absurd hm (List.not_mem_nil kv)
  | cons kv rest ih =>
    intro acc x
    rw [List.foldl_cons, ih]
    rw [mem_insertSet]
    constructor
    · intro h
      rcases h with (h | h) | h
      · exact Or.inl h
      · exact Or.inr ⟨kv, List.mem_cons_self _ _, h.symm⟩
      · rcases h with ⟨kv2, hm, he⟩
        exact Or.inr ⟨kv2, List.mem_cons_of_mem _ hm, he⟩
    · intro h
      rcases h with h | ⟨kv2, hm, he⟩
      · exact Or.inl (Or.inl h)
      · rcases List.mem_cons.mp hm with hh | hh
        · exact Or.inl (Or.inr (hh ▸ he).symm)
        · exact Or.inr ⟨kv2, hh, he⟩

theorem mem_keyUnion (data : List Row) (x : Str) :
    x ∈ keyUnion data ↔ ∃ row ∈ data, dictMem row x = true := by
  unfold keyUnion
  have main : ∀ (rows : List Row) (acc : List Str),
      x ∈ rows.foldl (fun acc row => row.foldl (fun a kv => insertSet a kv.1) acc) acc ↔
        x ∈ acc ∨ ∃ row ∈ rows, dictMem row x = true := by
    intro rows
    induction rows with
    | nil =>
      intro acc
      rw [List.foldl_nil]
      constructor
      · exact fun h => Or.inl h
      · intro h
        rcases h with h | ⟨row, hm, _⟩
        · exact h
        · exact absurd hm (List.not_mem_nil row)
    | cons row rest ih =>
      intro acc
      rw [List.foldl_cons, ih, mem_rowKeysFold]
      rw [← dictMem_true_iff]
      constructor
      · intro h
        rcases h with (h | h) | h
        · exact Or.inl h
        · exact Or.inr ⟨row, List.mem_cons_self _ _, h⟩
        · rcases h with ⟨row2, hm, hd⟩
          exact Or.inr ⟨row2, List.mem_cons_of_mem _ hm, hd⟩
      · intro h
        rcases h with h | ⟨row2, hm, hd⟩
        · exact Or.inl (Or.inl h)
        · rcases List.mem_cons.mp hm with hh | hh
          · exact Or.inl (Or.inr (hh ▸ hd))
          · exact Or.inr ⟨row2, hh, hd⟩
  rw [main data []]
  constructor
  · intro h
    rcases h with h | h
    · exact absurd h (List.not_mem_nil x)
    · exact h
  · exact Or.inr

theorem nodup_keyUnion (data : List Row) : (keyUnion data).Nodup := by
  unfold keyUnion
  apply foldlPreserve (fun l : List Str => l.Nodup)
  · intro acc row _ hacc
    apply foldlPreserve (fun l : List Str => l.Nodup)
    · intro a kv _ ha
      exact nodup_insertSet kv.1 ha
    · exact hacc
  · exact List.nodup_nil

theorem sortStrs_keyUnion_nodup (data : List Row) : (sortStrs (keyUnion data)).Nodup :=
  (sortStrs_perm (keyUnion data)).nodup_iff.mpr (nodup_keyUnion data)

/-- C6 counterexample input: a top-level array containing a non-object. -/
def c6Input : Json := .arr [.num 1]

/-- C6 is false as stated: the loader accepts a top-level array containing a
non-object element instead of failing — `read_json` returns the array
unchanged with no element check (converter.py:33-38). -/
theorem c6_counterexample :
    isErr (read_json c6Input) = false ∧ read_json c6Input = .ok [.num 1] :=
  ⟨rfl, rfl⟩

/-- C6 amended: the loader fails (with `ValueError`, not a `SchemaError`)
exactly when the parsed root value is neither an object nor an array; in
particular a top-level number fails, while any array — even one containing
non-object elements — is accepted unchanged, and an object is wrapped into a
one-element list. -/
theorem c6_read_json_characterization :
    (∀ n : Int, isErr (read_json (.num n)) = true)
    ∧ isErr (read_json .null) = true
    ∧ (∀ b : Bool, isErr (read_json (.bool b)) = true)
    ∧ (∀ t : Str, isErr (read_json (.str t)) = true)
    ∧ (∀ xs : List Json, read_json (.arr xs) = .ok xs)
    ∧ (∀ fields : Obj, read_json (.obj fields) = .ok [.obj fields]) :=
  ⟨fun _ => rfl, rfl, fun _ => rfl, fun _ => rfl, fun _ => rfl, fun _ => rfl⟩

/-- The input of Scenario B of the spec (claim C3). -/
def c3Input : List Obj :=
  [[(cs "id", .num 1), (cs "name", .str (cs "A")),
    (cs "tags", .arr [.str (cs "x"), .str (cs "y")]),
    (cs "meta", .obj [(cs "a", .bool true)])],
   [(cs "id", .num 2), (cs "name", .str (cs "B")),
    (cs "tags", .arr []),
    (cs "meta", .obj [])]]

/-- C3 is false as stated: on the Scenario B input the engine produces no
`tags` table at all (a scalar array never becomes an entity,
converter.py:135), and the `meta` table has 2 rows, not 1 — record 2's empty
object also appends a row (converter.py:196-202). -/
theorem c3_counterexample :
    (dictget (convert_to_normalized_csvs c3Input) (cs "tags")).isNone = true
    ∧ (dictget (convert_to_normalized_csvs c3Input) (cs "meta")).map List.length
        = some 2 :=
  ⟨rfl, rfl⟩

/-- C3 amended: on the Scenario B input the root table has 2 rows; there is
no `tags` table (arrays of scalars are dropped entirely in normalized mode);
and the `meta` table has exactly 2 rows, one per record — the empty object of
record 2 produces a row carrying only the generated keys. -/
theorem c3_normalized_output :
    convert_to_normalized_csvs c3Input =
      [(cs "root",
        [[(cs "id", .num 1), (cs "name", .str (cs "A"))],
         [(cs "id", .num 2), (cs "name", .str (cs "B"))]]),
       (cs "meta",
        [[(cs "id", .num 1), (cs "root_id", .num 1), (cs "a", .bool true)],
         [(cs "id", .num 2), (cs "root_id", .num 2)]])] :=
  rfl

/-- C5 counterexample input: one row whose keys are not in sorted order. -/
def c5Input : List Row := [[(cs "b", .num 1), (cs "a", .num 2)]]

/-- C5 is false as stated: `write_csv` sorts the header
(`sorted(headers)`, converter.py:237); it does not keep first-seen key order.
Here the single row's keys appear in order `b, a` but the emitted header is
`a, b`. -/
theorem c5_counterexample :
    keyUnion c5Input = [cs "b", cs "a"]
    ∧ headersOf (write_csv c5Input) = [cs "a", cs "b"]
    ∧ headersOf (write_csv c5Input) ≠ keyUnion c5Input :=
  ⟨rfl, rfl, by decide⟩

/-- C5 amended: for every non-empty row sequence, the emitted header is the
lexicographically sorted, duplicate-free union of all row keys (the same
rule as flattened mode — the generated primary-key column is NOT kept first). -/
theorem c5_write_csv_header (data : List Row) (h : data ≠ []) :
    headersOf (write_csv data) = sortStrs (keyUnion data)
    ∧ (headersOf (write_csv data)).Pairwise strLeP
    ∧ (headersOf (write_csv data)).Nodup
    ∧ (∀ k, k ∈ headersOf (write_csv data) ↔ ∃ row ∈ data, dictMem row k = true) := by
  have hne : data.isEmpty = false := by
    cases data with
    | nil => exact absurd rfl h
    | cons a l => rfl
  have hw : write_csv data = some (sortStrs (keyUnion data),
      data.map fun row => (sortStrs (keyUnion data)).map
        fun hd => renderCell (dictget row hd)) := by
    unfold write_csv
    rw [hne]
    rfl
  rw [hw]
  refine ⟨rfl, sortStrs_sorted _, sortStrs_keyUnion_nodup _, ?_⟩
  intro k
  show k ∈ sortStrs (keyUnion data) ↔ _
  rw [(sortStrs_perm (keyUnion data)).mem_iff]
  exact mem_keyUnion data k

/-- Witness for the amended C5 at a concrete non-empty input. -/
theorem c5_write_csv_header_witness :
    c5Input ≠ []
    ∧ (headersOf (write_csv c5Input) = sortStrs (keyUnion c5Input)
      ∧ (headersOf (write_csv c5Input)).Pairwise strLeP
      ∧ (headersOf (write_csv c5Input)).Nodup
      ∧ (∀ k, k ∈ headersOf (write_csv c5Input) ↔
          ∃ row ∈ c5Input, dictMem row k = true)) :=
  ⟨by unfold c5Input; exact List.cons_ne_nil _ _,
   c5_write_csv_header c5Input (by unfold c5Input; exact List.cons_ne_nil _ _)⟩

theorem mem_convert_tables (jd : List Obj) (p : Str × List Row)
    (hp : p ∈ convert_to_normalized_csvs jd) :
    p = (rootKey, root_data jd) ∨
      (p.1 ≠ rootKey ∧ ∃ e : Ent, p.2 = entData e.fields p.1 jd) := by
  unfold convert_to_normalized_csvs at hp
  rcases List.mem_cons.mp hp with h | h
  · exact Or.inl h
  · rcases List.mem_filterMap.mp h with ⟨q, _, hf⟩
    by_cases hq : q.1 = rootKey
    · rw [if_pos hq] at hf
      exact Option.noConfusion hf
    · rw [if_neg hq] at hf
      have hpq := Option.some.inj hf
      refine Or.inr ⟨?_, ⟨q.2, ?_⟩⟩
      · rw [← hpq]
        exact hq
      · rw [← hpq]

theorem rootRowsFrom_mem : ∀ (jd : List Obj) (k : Nat) (row : Row),
    row ∈ rootRowsFrom k jd → ∃ i item, item ∈ jd ∧ row = buildRootRow i item
  | [], _, row, h => absurd h (List.not_mem_nil row)
  | item :: rest, k, row, h => by
    rcases List.mem_cons.mp h with he | hm
    · exact ⟨k, item, List.mem_cons_self _ _, he⟩
    · rcases rootRowsFrom_mem rest (k + 1) row hm with ⟨i, item2, hm2, he2⟩
      exact ⟨i, item2, List.mem_cons_of_mem _ hm2, he2⟩

theorem foldl_append_mem {β : Type} (g : List Row → β → Row) :
    ∀ (l : List β) (acc : List Row) (row : Row),
      row ∈ l.foldl (fun a b => a ++ [g a b]) acc →
        row ∈ acc ∨ ∃ a b, b ∈ l ∧ row = g a b
  | [], _, _, h => Or.inl h
  | b :: rest, acc, row, h => by
    rcases foldl_append_mem g rest (acc ++ [g acc b]) row h with hm | ⟨a, b2, hb2, he⟩
    · rcases List.mem_append.mp hm with hm2 | hm2
      · exact Or.inl hm2
      · exact Or.inr ⟨acc, b, List.mem_cons_self _ _, (List.mem_singleton.mp hm2)⟩
    · exact Or.inr ⟨a, b2, List.mem_cons_of_mem _ hb2, he⟩

theorem entRowsStep_eq_none {fs : List Str} {en : Str} {i : Nat} {item : Obj}
    {acc : List Row} (hd : dictget item en = none) :
    entRowsStep fs en i item acc = acc := by
  unfold entRowsStep
  rw [hd]

theorem entRowsStep_eq_obj {fs : List Str} {en : Str} {i : Nat} {item : Obj}
    {acc : List Row} {sub : Obj} (hd : dictget item en = some (.obj sub)) :
    entRowsStep fs en i item acc =
      acc ++ [buildEntRow (acc.length + 1) (i + 1) fs sub] := by
  unfold entRowsStep
  rw [hd]

theorem entRowsStep_eq_arr {fs : List Str} {en : Str} {i : Nat} {item : Obj}
    {acc : List Row} {first : Json} {rest : List Json}
    (hd : dictget item en = some (.arr (first :: rest))) :
    entRowsStep fs en i item acc =
      if first.isDict = true then
        (first :: rest).foldl
          (fun a sub => a ++ [buildEntRow (a.length + 1) (i + 1) fs sub.toObj]) acc
      else acc := by
  unfold entRowsStep
  rw [hd]

theorem entRowsStep_eq_other {fs : List Str} {en : Str} {i : Nat} {item : Obj}
    {acc : List Row} {v : Json} (hd : dictget item en = some v)
    (h1 : v.isDict = false) (h2 : (∀ first rest, v ≠ .arr (first :: rest))) :
    entRowsStep fs en i item acc = acc := by
  unfold entRowsStep
  rw [hd]
  cases v with
  | obj sub => exact absurd h1 (by simp [Json.isDict])
  | arr elems =>
    cases elems with
    | nil => rfl
    | cons a l => exact absurd rfl (h2 a l)
  | null => rfl
  | bool b => rfl
  | num n => rfl
  | str t => rfl

theorem entRowsStep_mem {fs : List Str} {en : Str} {i : Nat} {item : Obj}
    {acc : List Row} {row : Row} (h : row ∈ entRowsStep fs en i item acc) :
    row ∈ acc ∨ ∃ pk fk sub, row = buildEntRow pk fk fs sub := by
  cases hd : dictget item en with
  | none =>
    rw [entRowsStep_eq_none hd] at h
    exact Or.inl h
  | some value =>
    cases value with
    | obj sub =>
      rw [entRowsStep_eq_obj hd] at h
      rcases List.mem_append.mp h with hm | hm
      · exact Or.inl hm
      · exact Or.inr ⟨acc.length + 1, i + 1, sub, List.mem_singleton.mp hm⟩
    | arr elems =>
      cases elems with
      | nil =>
        rw [entRowsStep_eq_other hd (by simp [Json.isDict])
          (fun a l hne => by simp at hne)] at h
        exact Or.inl h
      | cons first rest =>
        rw [entRowsStep_eq_arr hd] at h
        by_cases hdict : first.isDict = true
        · rw [if_pos hdict] at h
          rcases foldl_append_mem _ _ _ _ h with hm | ⟨a, b, _, he⟩
          · exact Or.inl hm
          · exact Or.inr ⟨a.length + 1, i + 1, b.toObj, he⟩
        · rw [if_neg hdict] at h
          exact Or.inl h
    | null =>
      rw [entRowsStep_eq_other hd rfl (fun a l hne => by simp at hne)] at h
      exact Or.inl h
    | bool b =>
      rw [entRowsStep_eq_other hd rfl (fun a l hne => by simp at hne)] at h
      exact Or.inl h
    | num n =>
      rw [entRowsStep_eq_other hd rfl (fun a l hne => by simp at hne)] at h
      exact Or.inl h
    | str t =>
      rw [entRowsStep_eq_other hd rfl (fun a l hne => by simp at hne)] at h
      exact Or.inl h

theorem entRowsFrom_mem {fs : List Str} {en : Str} :
    ∀ (jd : List Obj) (i : Nat) (acc : List Row) (row : Row),
      row ∈ entRowsFrom fs en i jd acc →
        row ∈ acc ∨ ∃ pk fk sub, row = buildEntRow pk fk fs sub
  | [], _, _, _, h => Or.inl h
  | item :: rest, i, acc, row, h => by
    rcases entRowsFrom_mem rest (i + 1) (entRowsStep fs en i item acc) row h
      with hm | he
    · rcases entRowsStep_mem hm with hm2 | he2
      · exact Or.inl hm2
      · exact Or.inr he2
    · exact Or.inr he

theorem entData_mem {fs : List Str} {en : Str} {jd : List Obj} {row : Row}
    (h : row ∈ entData fs en jd) : ∃ pk fk sub, row = buildEntRow pk fk fs sub := by
  rcases entRowsFrom_mem jd 0 [] row h with hm | he
  · exact absurd hm (List.not_mem_nil row)
  · exact he

theorem start_countKey_id (pk fk : Nat) :
    countKey [(idKey, Json.num (Int.ofNat pk)), (rootIdKey, Json.num (Int.ofNat fk))]
      idKey = 1 := by
  simp [countKey, List.countP_cons, List.countP_nil, idKey, rootIdKey, cs]

theorem start_countKey_rootid (pk fk : Nat) :
    countKey [(idKey, Json.num (Int.ofNat pk)), (rootIdKey, Json.num (Int.ofNat fk))]
      rootIdKey = 1 := by
  simp [countKey, List.countP_cons, List.countP_nil, idKey, rootIdKey, cs]

/-- C4 counterexample input: a record with one scalar field and one nested
object. -/
def c4Input : List Obj :=
  [[(cs "a", .num 1), (cs "meta", .obj [(cs "b", .num 2)])]]

/-- C4 is false as stated: the root row carries no `root_id` column (its
generated primary key is named `id`, converter.py:177) and the `meta` row
carries no `meta_id` column (its primary key is also named `id`,
converter.py:198). -/
theorem c4_counterexample :
    (root_data c4Input).map (fun r => dictMem r rootIdKey) = [false]
    ∧ (root_data c4Input).map (fun r => dictMem r idKey) = [true]
    ∧ (dictget (convert_to_normalized_csvs c4Input) (cs "meta")).map
        (fun rows => rows.map fun r => dictMem r (cs "meta_id")) = some [false]
    ∧ (dictget (convert_to_normalized_csvs c4Input) (cs "meta")).map
        (fun rows => rows.map fun r => dictMem r idKey) = some [true] :=
  ⟨rfl, rfl, rfl, rfl⟩

/-- C4 amended: every normalized-mode table row carries exactly one
primary-key column, and its name is `id` in every table (root included);
every non-root row additionally carries exactly one foreign-key column, and
its name is always `root_id` (there is no `{singular(table)}_id` naming).
The hypothesis `normWellTyped` excludes inputs on which the Python loop
raises `TypeError` before producing any table. -/
theorem c4_key_columns (jd : List Obj) (hw : normWellTyped jd = true)
    (p : Str × List Row) (hp : p ∈ convert_to_normalized_csvs jd)
    (row : Row) (hr : row ∈ p.2) :
    countKey row idKey = 1 ∧ (p.1 ≠ rootKey → countKey row rootIdKey = 1) := by
  rcases mem_convert_tables jd p hp with he | ⟨hne, e, he⟩
  · rw [he] at hr
    simp only [he]
    constructor
    · rcases rootRowsFrom_mem jd 0 row hr with ⟨i, item, _, heq⟩
      rw [heq]
      exact buildRootRow_countKey_id i item
    · intro hcontr
      exact absurd rfl hcontr
  · rw [he] at hr
    rcases entData_mem hr with ⟨pk, fk, sub, heq⟩
    rw [heq]
    exact ⟨buildEntRow_countKey pk fk e.fields sub idKey (start_countKey_id pk fk),
      fun _ => buildEntRow_countKey pk fk e.fields sub rootIdKey
        (start_countKey_rootid pk fk)⟩

/-- Witness for the amended C4 at the `c4Input` tables. -/
theorem c4_key_columns_witness :
    normWellTyped c4Input = true
    ∧ (cs "meta", entData [cs "b"] (cs "meta") c4Input)
        ∈ convert_to_normalized_csvs c4Input
    ∧ [(idKey, Json.num 1), (rootIdKey, Json.num 1), (cs "b", Json.num 2)]
        ∈ entData [cs "b"] (cs "meta") c4Input
    ∧ (countKey [(idKey, Json.num 1), (rootIdKey, Json.num 1), (cs "b", Json.num 2)]
          idKey = 1
      ∧ ((cs "meta", entData [cs "b"] (cs "meta") c4Input).1 ≠ rootKey →
          countKey [(idKey, Json.num 1), (rootIdKey, Json.num 1), (cs "b", Json.num 2)]
            rootIdKey = 1)) := by
  refine ⟨rfl, ?_, ?_, ?_⟩
  · show _ ∈ [_, _]
    right
    exact List.mem_singleton.mpr rfl
  · exact List.mem_singleton.mpr rfl
  · exact c4_key_columns c4Input rfl _
      (by
        show _ ∈ [_, _]
        right
        exact List.mem_singleton.mpr rfl)
      _ (List.mem_singleton.mpr rfl)

theorem dictget_some_mem {α : Type} {d : List (Str × α)} {k : Str} {v : α}
    (h : dictget d k = some v) : (k, v) ∈ d := by
  unfold dictget at h
  cases hf : List.find? (fun p => decide (p.1 = k)) d with
  | none =>
    rw [hf] at h
    exact Option.noConfusion h
  | some kv =>
    rw [hf] at h
    have hk0 := @List.find?_some (Str × α) (fun p => decide (p.1 = k)) kv d hf
    have hk : kv.1 = k := of_decide_eq_true hk0
    have hv : kv.2 = v := Option.some.inj h
    have hm := List.mem_of_find?_eq_some hf
    rw [← hk, ← hv]
    exact hm

theorem getNumAt_of_dictget {row : Row} {k : Str} {n : Int}
    (h : dictget row k = some (.num n)) : getNumAt row k = some n := by
  unfold getNumAt
  rw [h]
  rfl

theorem dictget_eq_none_of_lacks {sub : Obj} {k : Str}
    (h : (!(dictMem sub k)) = true) : dictget sub k = none := by
  rw [Bool.not_eq_true'] at h
  unfold dictMem at h
  cases hd : dictget sub k with
  | none => rfl
  | some v =>
    rw [hd] at h
    exact Bool.noConfusion h

theorem noTopScalarId_spec {jd : List Obj} (h : noTopScalarId jd = true)
    {item : Obj} (hm : item ∈ jd) :
    ∀ kv ∈ item, kv.2.isScalar = true → kv.1 ≠ idKey := by
  intro kv hkv hs he
  rw [noTopScalarId, List.all_eq_true] at h
  have h2 := h item hm
  rw [List.all_eq_true] at h2
  have h3 := h2 kv hkv
  rw [he, hs] at h3
  simp at h3

theorem noNestedKey_spec {jd : List Obj} {key : Str}
    (h : noNestedKey jd key = true) {item : Obj} (hm : item ∈ jd) :
    ∀ kv ∈ item, objLacks key kv.2 = true := by
  intro kv hkv
  rw [noNestedKey, List.all_eq_true] at h
  have h2 := h item hm
  rw [List.all_eq_true] at h2
  exact h2 kv hkv

theorem pairwise_ne_of_map_nodup {α β : Type} {l : List α} {g : α → β}
    (h : (l.map g).Nodup) : l.Pairwise fun a b => g a ≠ g b := by
  induction l with
  | nil => exact List.Pairwise.nil
  | cons a rest ih =>
    rw [List.map_cons, List.nodup_cons] at h
    refine List.Pairwise.cons ?_ (ih h.2)
    intro b hb he
    exact h.1 (he ▸ List.mem_map_of_mem g hb)

theorem countP_range_eq_one (n i0 : Nat) (h : i0 < n) :
    (List.range n).countP (fun j => decide (j = i0)) = 1 := by
  induction n with
  | zero => exact absurd h (Nat.not_lt_zero i0)
  | succ m ih =>
    rw [List.range_succ, List.countP_append]
    rcases Nat.lt_succ_iff_lt_or_eq.mp h with h2 | h2
    · rw [ih h2]
      have hne : i0 ≠ m := Nat.ne_of_lt h2
      simp [List.countP_cons, Ne.symm hne]
    · subst h2
      have hz : (List.range i0).countP (fun j => decide (j = i0)) = 0 := by
        rw [List.countP_eq_zero]
        intro a ha
        have := List.mem_range.mp ha
        simp only [decide_eq_true_eq]
        exact Nat.ne_of_lt this
      rw [hz]
      simp [List.countP_cons]

/-- The generated root primary keys, in order: on a record list with no
scalar top-level `id` field, the `id` column of row `j` (0-based, generation
starting at `k`) is `k + j + 1`. -/
theorem rootRowsFrom_map_id (jd : List Obj)
    (h : ∀ item ∈ jd, ∀ kv ∈ item, kv.2.isScalar = true → kv.1 ≠ idKey) :
    ∀ k, (rootRowsFrom k jd).map (fun r => getNumAt r idKey)
      = (List.range jd.length).map fun j => some (Int.ofNat (k + j + 1)) := by
  induction jd with
  | nil => intro k; rfl
  | cons item rest ih =>
    intro k
    have hid : getNumAt (buildRootRow k item) idKey = some (Int.ofNat (k + 1)) :=
      getNumAt_of_dictget (buildRootRow_id k item (h item (List.mem_cons_self _ _)))
    show getNumAt (buildRootRow k item) idKey ::
        (rootRowsFrom (k + 1) rest).map (fun r => getNumAt r idKey) = _
    rw [hid, ih (fun it hm => h it (List.mem_cons_of_mem _ hm)) (k + 1)]
    rw [List.length_cons, List.range_succ_eq_map, List.map_cons, List.map_map]
    congr 1
    apply List.map_congr_left
    intro j _
    show some (Int.ofNat (k + 1 + j + 1)) = some (Int.ofNat (k + (j + 1) + 1))
    congr 2
    omega

/-- The generated primary keys of an entity table are the consecutive
integers `1..n` in order. -/
def idsSeq (rows : List Row) : Prop :=
  rows.map (fun r => getNumAt r idKey)
    = (List.range rows.length).map fun j => some (Int.ofNat (j + 1))

theorem idsSeq_nil : idsSeq [] := rfl

theorem idsSeq_append {acc : List Row} {row : Row} (h : idsSeq acc)
    (hrow : getNumAt row idKey = some (Int.ofNat (acc.length + 1))) :
    idsSeq (acc ++ [row]) := by
  unfold idsSeq at h ⊢
  rw [List.map_append, h, List.length_append]
  show _ = (List.range (acc.length + 1)).map _
  rw [List.range_succ, List.map_append]
  simp [hrow]

theorem idsSeq_get {rows : List Row} (h : idsSeq rows) (j : Nat)
    (hj : j < rows.length) :
    getNumAt (rows.get ⟨j, hj⟩) idKey = some (Int.ofNat (j + 1)) := by
  have hl1 : j < (rows.map fun r => getNumAt r idKey).length := by
    rw [List.length_map]
    exact hj
  have hl2 : j < ((List.range rows.length).map fun j => some (Int.ofNat (j + 1))).length := by
    rw [List.length_map, List.length_range]
    exact hj
  have hg := List.get_of_eq h ⟨j, hl1⟩
  rw [List.get_map] at hg
  rw [hg]
  have : ((List.range rows.length).map fun j => some (Int.ofNat (j + 1))).get ⟨j, hl2⟩
      = some (Int.ofNat ((List.range rows.length).get ⟨j, by rwa [List.length_range]⟩ + 1)) :=
    List.get_map _
  rw [this, List.get_range]

theorem toObj_get_none_of_arrLacks {key : Str} {elems : List Json}
    (h : objLacks key (.arr elems) = true) :
    ∀ x ∈ elems, dictget x.toObj key = none := by
  intro x hx
  rw [objLacks, List.all_eq_true] at h
  have hx2 := h x hx
  cases x with
  | obj sub => exact dictget_eq_none_of_lacks hx2
  | null => rfl
  | bool b => rfl
  | num n => rfl
  | str t => rfl
  | arr ys => rfl

theorem buildEntRow_id_num {pk fk : Nat} {fs : List Str} {sub : Obj}
    (h : dictget sub idKey = none) :
    getNumAt (buildEntRow pk fk fs sub) idKey = some (Int.ofNat pk) :=
  getNumAt_of_dictget (buildEntRow_key pk fk fs sub idKey _ h (buildEntRow_start_id pk fk))

theorem buildEntRow_fk_num {pk fk : Nat} {fs : List Str} {sub : Obj}
    (h : dictget sub rootIdKey = none) :
    getNumAt (buildEntRow pk fk fs sub) rootIdKey = some (Int.ofNat fk) :=
  getNumAt_of_dictget
    (buildEntRow_key pk fk fs sub rootIdKey _ h (buildEntRow_start_rootid pk fk))

theorem foldl_ent_idsSeq (fs : List Str) (fk : Nat) :
    ∀ (elems : List Json) (acc : List Row),
      (∀ x ∈ elems, dictget x.toObj idKey = none) → idsSeq acc →
      idsSeq (elems.foldl
        (fun a sub => a ++ [buildEntRow (a.length + 1) fk fs sub.toObj]) acc)
  | [], _, _, hacc => hacc
  | x :: rest, acc, h, hacc => by
    rw [List.foldl_cons]
    apply foldl_ent_idsSeq fs fk rest
    · intro y hy
      exact h y (List.mem_cons_of_mem _ hy)
    · exact idsSeq_append hacc
        (buildEntRow_id_num (h x (List.mem_cons_self _ _)))

theorem entRowsStep_idsSeq {fs : List Str} {en : Str} {i : Nat} {item : Obj}
    {acc : List Row} (h : ∀ kv ∈ item, objLacks idKey kv.2 = true)
    (hacc : idsSeq acc) : idsSeq (entRowsStep fs en i item acc) := by
  cases hd : dictget item en with
  | none =>
    rw [entRowsStep_eq_none hd]
    exact hacc
  | some value =>
    have hlacks : objLacks idKey value = true := h (en, value) (dictget_some_mem hd)
    cases value with
    | obj sub =>
      rw [entRowsStep_eq_obj hd]
      exact idsSeq_append hacc (buildEntRow_id_num (dictget_eq_none_of_lacks hlacks))
    | arr elems =>
      cases elems with
      | nil =>
        rw [entRowsStep_eq_other hd (by simp [Json.isDict]) (fun a l hne => by simp at hne)]
        exact hacc
      | cons first rest =>
        rw [entRowsStep_eq_arr hd]
        by_cases hdict : first.isDict = true
        · rw [if_pos hdict]
          exact foldl_ent_idsSeq fs (i + 1) (first :: rest) acc
            (toObj_get_none_of_arrLacks hlacks) hacc
        · rw [if_neg hdict]
          exact hacc
    | null =>
      rw [entRowsStep_eq_other hd rfl (fun a l hne => by simp at hne)]
      exact hacc
    | bool b =>
      rw [entRowsStep_eq_other hd rfl (fun a l hne => by simp at hne)]
      exact hacc
    | num n =>
      rw [entRowsStep_eq_other hd rfl (fun a l hne => by simp at hne)]
      exact hacc
    | str t =>
      rw [entRowsStep_eq_other hd rfl (fun a l hne => by simp at hne)]
      exact hacc

theorem entRowsFrom_idsSeq {fs : List Str} {en : Str} :
    ∀ (jd : List Obj) (i : Nat) (acc : List Row),
      (∀ item ∈ jd, ∀ kv ∈ item, objLacks idKey kv.2 = true) → idsSeq acc →
      idsSeq (entRowsFrom fs en i jd acc)
  | [], _, _, _, hacc => hacc
  | item :: rest, i, acc, h, hacc =>
    entRowsFrom_idsSeq rest (i + 1) _
      (fun it hm => h it (List.mem_cons_of_mem _ hm))
      (entRowsStep_idsSeq (h item (List.mem_cons_self _ _)) hacc)

theorem entData_idsSeq {fs : List Str} {en : Str} {jd : List Obj}
    (h : noNestedKey jd idKey = true) : idsSeq (entData fs en jd) :=
  entRowsFrom_idsSeq jd 0 [] (fun item hm => noNestedKey_spec h hm) idsSeq_nil

/-- C9 counterexample input: the nested object itself carries an `id` field. -/
def c9Input : List Obj := [[(cs "meta", .obj [(cs "id", .num 99)])]]

/-- C9 is false as stated: `row[field] = sub[field]` overwrites the generated
primary key when the nested object has its own `id` field (converter.py:199-201),
so the first `meta` row's `id` is 99, not 1. -/
theorem c9_counterexample :
    (dictget (convert_to_normalized_csvs c9Input) (cs "meta")).map
        (fun rows => rows.map fun r => getNumAt r idKey) = some [some 99]
    ∧ (dictget (convert_to_normalized_csvs c9Input) (cs "meta")).map
        (fun rows => rows.map fun r => getNumAt r idKey) ≠ some [some 1] :=
  ⟨rfl, by decide⟩

/-- C9 amended: in every non-root table, the k-th row's `id` value is k
(1-based) — provided no nested object (dict value or array element) of any
record carries its own `id` field; such a field overwrites the generated key.
`normWellTyped` excludes inputs on which the Python loop raises `TypeError`. -/
theorem c9_nonroot_pk_consecutive (jd : List Obj)
    (h2 : noNestedKey jd idKey = true) (hw : normWellTyped jd = true)
    (p : Str × List Row) (hp : p ∈ convert_to_normalized_csvs jd)
    (hne : p.1 ≠ rootKey) (j : Nat) (hj : j < p.2.length) :
    getNumAt (p.2.get ⟨j, hj⟩) idKey = some (Int.ofNat (j + 1)) := by
  rcases mem_convert_tables jd p hp with he | ⟨_, e, he⟩
  · exact absurd (congrArg Prod.fst he) hne
  · have hseq : idsSeq p.2 := by
      rw [he]
      exact entData_idsSeq h2
    exact idsSeq_get hseq j hj

/-- Input for the witnesses of the amended C9/C2/C1: two plain records with a
nested object each. -/
def wInput : List Obj :=
  [[(cs "name", .str (cs "A")), (cs "meta", .obj [(cs "a", .num 5)])],
   [(cs "name", .str (cs "B")), (cs "meta", .obj [(cs "a", .num 6)])]]

/-- Witness for the amended C9 at `wInput`, second `meta` row. -/
theorem c9_nonroot_pk_consecutive_witness :
    noNestedKey wInput idKey = true
    ∧ normWellTyped wInput = true
    ∧ (cs "meta", entData [cs "a"] (cs "meta") wInput)
        ∈ convert_to_normalized_csvs wInput
    ∧ (cs "meta", entData [cs "a"] (cs "meta") wInput).1 ≠ rootKey
    ∧ (1 : Nat) < (cs "meta", entData [cs "a"] (cs "meta") wInput).2.length
    ∧ getNumAt ((cs "meta", entData [cs "a"] (cs "meta") wInput).2.get
        ⟨1, by decide⟩) idKey = some (Int.ofNat 2) := by
  refine ⟨rfl, rfl, ?_, by decide, by decide, ?_⟩
  · show _ ∈ [_, _]
    right
    exact List.mem_singleton.mpr rfl
  · exact c9_nonroot_pk_consecutive wInput rfl rfl _
      (by
        show _ ∈ [_, _]
        right
        exact List.mem_singleton.mpr rfl)
      (by decide) 1 (by decide)

theorem pairwise_ne_of_map_eq_range {rows : List Row} {f : Nat → Option Int}
    (hinj : Function.Injective f)
    (hmap : rows.map (fun r => getNumAt r idKey) = (List.range rows.length).map f) :
    rows.Pairwise fun r1 r2 => getNumAt r1 idKey ≠ getNumAt r2 idKey := by
  apply pairwise_ne_of_map_nodup
  rw [hmap]
  exact List.Nodup.map hinj (List.nodup_range _)

/-- C2 counterexample input: two records both carrying the scalar `id` 1. -/
def c2Input : List Obj := [[(cs "id", .num 1)], [(cs "id", .num 1)]]

/-- C2 is false as stated: a record's own scalar `id` field overwrites the
generated root primary key (`row[key] = value`, converter.py:180), so two
records with `id` 1 yield two root rows with the same primary-key value. -/
theorem c2_counterexample :
    (root_data c2Input).map (fun r => getNumAt r idKey) = [some 1, some 1]
    ∧ ¬ (root_data c2Input).Pairwise
        (fun r1 r2 => getNumAt r1 idKey ≠ getNumAt r2 idKey) := by
  refine ⟨rfl, ?_⟩
  intro hpw
  have h12 := List.rel_of_pairwise_cons hpw (List.mem_singleton.mpr rfl)
  exact h12 rfl

/-- C2 amended: within any single normalized table the primary-key (`id`)
values are pairwise distinct, provided no record carries a scalar top-level
`id` field and no nested object carries an `id` field (either overwrites the
generated keys and can create duplicates).  `normWellTyped` excludes inputs
on which the Python loop raises `TypeError`. -/
theorem c2_pk_unique (jd : List Obj) (h1 : noTopScalarId jd = true)
    (h2 : noNestedKey jd idKey = true) (hw : normWellTyped jd = true)
    (p : Str × List Row) (hp : p ∈ convert_to_normalized_csvs jd) :
    p.2.Pairwise fun r1 r2 => getNumAt r1 idKey ≠ getNumAt r2 idKey := by
  rcases mem_convert_tables jd p hp with he | ⟨_, e, he⟩
  · rw [he]
    show (root_data jd).Pairwise _
    have hmap := rootRowsFrom_map_id jd (fun item hm => noTopScalarId_spec h1 hm) 0
    apply pairwise_ne_of_map_eq_range (f := fun j => some (Int.ofNat (0 + j + 1)))
    · intro a b hab
      simp only [Option.some.injEq, Int.ofNat.injEq] at hab
      omega
    · rw [root_data] at *
      rw [hmap]
      have hlen : (rootRowsFrom 0 jd).length = jd.length := by
        rw [← List.length_map (rootRowsFrom 0 jd) (fun r => getNumAt r idKey), hmap]
        rw [List.length_map, List.length_range]
      rw [hlen]
  · have hseq : idsSeq p.2 := by
      rw [he]
      exact entData_idsSeq h2
    exact pairwise_ne_of_map_eq_range
      (f := fun j => some (Int.ofNat (j + 1)))
      (fun a b hab => by
        simp only [Option.some.injEq, Int.ofNat.injEq] at hab
        omega)
      hseq

/-- Witness for the amended C2 at the root table of `wInput`. -/
theorem c2_pk_unique_witness :
    noTopScalarId wInput = true
    ∧ noNestedKey wInput idKey = true
    ∧ normWellTyped wInput = true
    ∧ (rootKey, root_data wInput) ∈ convert_to_normalized_csvs wInput
    ∧ (rootKey, root_data wInput).2.Pairwise
        (fun r1 r2 => getNumAt r1 idKey ≠ getNumAt r2 idKey) :=
  ⟨rfl, rfl, rfl, List.mem_cons_self _ _,
   c2_pk_unique wInput rfl rfl rfl _ (List.mem_cons_self _ _)⟩

/-- Every row appended while processing record `i` carries the foreign key
`i + 1`, provided the nested objects carry no `root_id` field of their own. -/
theorem entRowsStep_fk {fs : List Str} {en : Str} {i n : Nat} {item : Obj}
    {acc : List Row} (hi : i < n)
    (hlacks : ∀ kv ∈ item, objLacks rootIdKey kv.2 = true)
    (hacc : ∀ r ∈ acc, ∃ j, j < n ∧ getNumAt r rootIdKey = some (Int.ofNat (j + 1))) :
    ∀ r ∈ entRowsStep fs en i item acc,
      ∃ j, j < n ∧ getNumAt r rootIdKey = some (Int.ofNat (j + 1)) := by
  intro r hr
  cases hd : dictget item en with
  | none =>
    rw [entRowsStep_eq_none hd] at hr
    exact hacc r hr
  | some value =>
    have hl : objLacks rootIdKey value = true := hlacks (en, value) (dictget_some_mem hd)
    cases value with
    | obj sub =>
      rw [entRowsStep_eq_obj hd] at hr
      rcases List.mem_append.mp hr with hm | hm
      · exact hacc r hm
      · rw [List.mem_singleton.mp hm]
        exact ⟨i, hi, buildEntRow_fk_num (dictget_eq_none_of_lacks hl)⟩
    | arr elems =>
      cases elems with
      | nil =>
        rw [entRowsStep_eq_other hd (by simp [Json.isDict])
          (fun a l hne => by simp at hne)] at hr
        exact hacc r hr
      | cons first rest =>
        rw [entRowsStep_eq_arr hd] at hr
        by_cases hdict : first.isDict = true
        · rw [if_pos hdict] at hr
          rcases foldl_append_mem _ _ _ _ hr with hm | ⟨a, b, hb, heq⟩
          · exact hacc r hm
          · rw [heq]
            exact ⟨i, hi, buildEntRow_fk_num
              (toObj_get_none_of_arrLacks hl b hb)⟩
        · rw [if_neg hdict] at hr
          exact hacc r hr
    | null =>
      rw [entRowsStep_eq_other hd rfl (fun a l hne => by simp at hne)] at hr
      exact hacc r hr
    | bool b =>
      rw [entRowsStep_eq_other hd rfl (fun a l hne => by simp at hne)] at hr
      exact hacc r hr
    | num m =>
      rw [entRowsStep_eq_other hd rfl (fun a l hne => by simp at hne)] at hr
      exact hacc r hr
    | str t =>
      rw [entRowsStep_eq_other hd rfl (fun a l hne => by simp at hne)] at hr
      exact hacc r hr

theorem entRowsFrom_fk {fs : List Str} {en : Str} {n : Nat} :
    ∀ (jd : List Obj) (i : Nat) (acc : List Row), i + jd.length ≤ n →
      (∀ item ∈ jd, ∀ kv ∈ item, objLacks rootIdKey kv.2 = true) →
      (∀ r ∈ acc, ∃ j, j < n ∧ getNumAt r rootIdKey = some (Int.ofNat (j + 1))) →
      ∀ r ∈ entRowsFrom fs en i jd acc,
        ∃ j, j < n ∧ getNumAt r rootIdKey = some (Int.ofNat (j + 1))
  | [], _, _, _, _, hacc => hacc
  | item :: rest, i, acc, hb, hlacks, hacc => by
    have hi : i < n := by
      rw [List.length_cons] at hb
      omega
    exact entRowsFrom_fk rest (i + 1) _ (by rw [List.length_cons] at hb; omega)
      (fun it hm => hlacks it (List.mem_cons_of_mem _ hm))
      (entRowsStep_fk hi (hlacks item (List.mem_cons_self _ _)) hacc)

/-- The root table has exactly one row whose `id` equals `j + 1`, for each
record index `j`, when no record overwrites the generated root key. -/
theorem root_count_id (jd : List Obj)
    (h : ∀ item ∈ jd, ∀ kv ∈ item, kv.2.isScalar = true → kv.1 ≠ idKey)
    (j : Nat) (hj : j < jd.length) :
    (root_data jd).countP
      (fun r => decide (getNumAt r idKey = some (Int.ofNat (j + 1)))) = 1 := by
  have hmap := rootRowsFrom_map_id jd h 0
  rw [root_data]
  have h1 : (rootRowsFrom 0 jd).countP
        (fun r => decide (getNumAt r idKey = some (Int.ofNat (j + 1))))
      = ((rootRowsFrom 0 jd).map (fun r => getNumAt r idKey)).countP
        (fun o => decide (o = some (Int.ofNat (j + 1)))) := by
    rw [List.countP_map]
    rfl
  rw [h1, hmap, List.countP_map]
  have h2 : ∀ a ∈ List.range jd.length,
      (((fun o => decide (o = some (Int.ofNat (j + 1)))) ∘
        fun i => some (Int.ofNat (0 + i + 1))) a = true
       ↔ (fun a => decide (a = j)) a = true) := by
    intro a _
    show decide (some (Int.ofNat (0 + a + 1)) = some (Int.ofNat (j + 1))) = true
      ↔ decide (a = j) = true
    rw [decide_eq_true_eq, decide_eq_true_eq]
    constructor
    · intro hh
      simp only [Option.some.injEq, Int.ofNat.injEq] at hh
      omega
    · intro hh
      subst hh
      rw [Nat.zero_add]
  rw [List.countP_congr h2]
  exact countP_range_eq_one jd.length j hj

/-- C1 counterexample input: the record's own scalar `id` (7) replaces the
generated root key 1, but the child row still points at `root_id` 1. -/
def c1Input : List Obj := [[(cs "id", .num 7), (cs "meta", .obj [(cs "a", .num 1)])]]

/-- C1 is false as stated: on `c1Input`, the only `meta` row has foreign key
1, but no root row has primary key 1 (the root table's only `id` is the
record's own 7), so the foreign key matches zero parent rows, not one. -/
theorem c1_counterexample :
    (dictget (convert_to_normalized_csvs c1Input) (cs "meta")).map
        (fun rows => rows.map fun r => getNumAt r rootIdKey) = some [some 1]
    ∧ (root_data c1Input).map (fun r => getNumAt r idKey) = [some 7]
    ∧ (root_data c1Input).countP
        (fun r => decide (getNumAt r idKey = some 1)) = 0 :=
  ⟨rfl, rfl, rfl⟩

/-- C1 amended: referential integrity holds provided no record carries a
scalar top-level `id` field and no nested object carries a `root_id` field
(either would overwrite a generated key): every non-root row's `root_id`
value then equals the `id` of exactly one root-table row.  `normWellTyped`
excludes inputs on which the Python loop raises `TypeError`. -/
theorem c1_referential_integrity (jd : List Obj)
    (h1 : noTopScalarId jd = true) (h2 : noNestedKey jd rootIdKey = true)
    (hw : normWellTyped jd = true)
    (p : Str × List Row) (hp : p ∈ convert_to_normalized_csvs jd)
    (hne : p.1 ≠ rootKey) (row : Row) (hr : row ∈ p.2) :
    ∃ v : Int, getNumAt row rootIdKey = some v
      ∧ (root_data jd).countP
          (fun r => decide (getNumAt r idKey = some v)) = 1 := by
  rcases mem_convert_tables jd p hp with he | ⟨_, e, he⟩
  · exact absurd (congrArg Prod.fst he) hne
  · rw [he] at hr
    have hfk := entRowsFrom_fk (n := jd.length) jd 0 [] (by omega)
      (fun item hm => noNestedKey_spec h2 hm)
      (fun r hm => absurd hm (List.not_mem_nil r))
      row hr
    rcases hfk with ⟨j, hj, hv⟩
    exact ⟨Int.ofNat (j + 1), hv,
      root_count_id jd (fun item hm => noTopScalarId_spec h1 hm) j hj⟩

/-- Witness for the amended C1 at `wInput`, first `meta` row. -/
theorem c1_referential_integrity_witness :
    noTopScalarId wInput = true
    ∧ noNestedKey wInput rootIdKey = true
    ∧ normWellTyped wInput = true
    ∧ (cs "meta", entData [cs "a"] (cs "meta") wInput)
        ∈ convert_to_normalized_csvs wInput
    ∧ (cs "meta", entData [cs "a"] (cs "meta") wInput).1 ≠ rootKey
    ∧ [(idKey, Json.num 1), (rootIdKey, Json.num 1), (cs "a", Json.num 5)]
        ∈ (cs "meta", entData [cs "a"] (cs "meta") wInput).2
    ∧ (∃ v : Int,
        getNumAt [(idKey, Json.num 1), (rootIdKey, Json.num 1), (cs "a", Json.num 5)]
          rootIdKey = some v
        ∧ (root_data wInput).countP
            (fun r => decide (getNumAt r idKey = some v)) = 1) := by
  refine ⟨rfl, rfl, rfl, ?_, by decide, ?_, ?_⟩
  · show _ ∈ [_, _]
    right
    exact List.mem_singleton.mpr rfl
  · show _ ∈ [_, _]
    left
  · exact c1_referential_integrity wInput rfl rfl rfl
      (cs "meta", entData [cs "a"] (cs "meta") wInput)
      (by
        show _ ∈ [_, _]
        right
        exact List.mem_singleton.mpr rfl)
      (by decide)
      [(idKey, Json.num 1), (rootIdKey, Json.num 1), (cs "a", Json.num 5)]
      (by
        show _ ∈ [_, _]
        left)

theorem dictget_eq_none_of_not_mem {α : Type} {d : List (Str × α)} {k : Str}
    (h : dictMem d k = false) : dictget d k = none := by
  unfold dictMem at h
  cases hd : dictget d k with
  | none => rfl
  | some v =>
    rw [hd] at h
    exact Bool.noConfusion h

/-- C7 confirmed: in flattened mode the header is exactly the union of every
record's flattened key set, ordered lexicographically without duplicates;
there is one output row per record, each row has one cell per header column,
and a row whose record lacks a column's key renders the empty field there. -/
theorem c7_flattened_columns (jd : List Obj) (sep : Str) :
    (∀ k, k ∈ (convert_to_flattened_csv jd sep).1 ↔
      ∃ item ∈ jd, dictMem (flatten_json item sep) k = true)
    ∧ (convert_to_flattened_csv jd sep).1.Pairwise strLeP
    ∧ (convert_to_flattened_csv jd sep).1.Nodup
    ∧ (convert_to_flattened_csv jd sep).2.length = jd.length
    ∧ (∀ row ∈ (convert_to_flattened_csv jd sep).2,
        row.length = (convert_to_flattened_csv jd sep).1.length)
    ∧ (∀ (i : Nat) (hi : i < jd.length)
        (hi2 : i < (convert_to_flattened_csv jd sep).2.length)
        (j : Nat) (hj : j < (convert_to_flattened_csv jd sep).1.length)
        (hj2 : j < ((convert_to_flattened_csv jd sep).2.get ⟨i, hi2⟩).length),
        dictMem (flatten_json (jd.get ⟨i, hi⟩) sep)
            ((convert_to_flattened_csv jd sep).1.get ⟨j, hj⟩) = false →
          ((convert_to_flattened_csv jd sep).2.get ⟨i, hi2⟩).get ⟨j, hj2⟩ = []) := by
  refine ⟨?_, ?_, ?_, ?_, ?_, ?_⟩
  · intro k
    show k ∈ sortStrs (keyUnion (jd.map fun item => flatten_json item sep)) ↔ _
    rw [(sortStrs_perm _).mem_iff, mem_keyUnion]
    constructor
    · intro ⟨row, hm, hd⟩
      rcases List.mem_map.mp hm with ⟨item, hitem, heq⟩
      exact ⟨item, hitem, heq ▸ hd⟩
    · intro ⟨item, hitem, hd⟩
      exact ⟨flatten_json item sep, List.mem_map_of_mem _ hitem, hd⟩
  · exact sortStrs_sorted _
  · exact sortStrs_keyUnion_nodup _
  · show ((jd.map fun item => flatten_json item sep).map _).length = _
    rw [List.length_map, List.length_map]
  · intro row hrow
    show row.length = (sortStrs (keyUnion (jd.map fun item => flatten_json item sep))).length
    rcases List.mem_map.mp hrow with ⟨frow, _, heq⟩
    rw [← heq, List.length_map]
  · intro i hi hi2 j hj hj2 hmiss
    show (((jd.map fun item => flatten_json item sep).map _).get ⟨i, hi2⟩).get ⟨j, hj2⟩ = []
    have hstep : ((jd.map fun item => flatten_json item sep).map
        (fun row => (sortStrs (keyUnion (jd.map fun item => flatten_json item sep))).map
          fun h => renderCell (dictget row h))).get ⟨i, hi2⟩
        = (sortStrs (keyUnion (jd.map fun item => flatten_json item sep))).map
          fun h => renderCell (dictget (flatten_json (jd.get ⟨i, hi⟩) sep) h) := by
      rw [List.get_map, List.get_map]
    have hcell := List.get_of_eq hstep ⟨j, hj2⟩
    rw [hcell, List.get_map]
    have hjx : j < (sortStrs (keyUnion (jd.map fun item => flatten_json item sep))).length :=
      hj
    have hmiss2 : dictMem (flatten_json (jd.get ⟨i, hi⟩) sep)
        ((sortStrs (keyUnion (jd.map fun item => flatten_json item sep))).get ⟨j, hjx⟩)
        = false := hmiss
    rw [dictget_eq_none_of_not_mem hmiss2]
    rfl

/-- Witness input for C7: two records with disjoint keys. -/
def c7Input : List Obj := [[(cs "a", .num 1)], [(cs "b", .num 2)]]

/-- Witness for C7: the theorem applied at a concrete input, together with the
fully evaluated output — record 1 lacks column `b` and renders empty there,
record 2 lacks column `a` likewise. -/
theorem c7_flattened_columns_witness :
    convert_to_flattened_csv c7Input (cs "/")
      = ([cs "a", cs "b"], [[cs "1", []], [[], cs "2"]])
    ∧ ((∀ k, k ∈ (convert_to_flattened_csv c7Input (cs "/")).1 ↔
        ∃ item ∈ c7Input, dictMem (flatten_json item (cs "/")) k = true)
      ∧ (convert_to_flattened_csv c7Input (cs "/")).1.Pairwise strLeP
      ∧ (convert_to_flattened_csv c7Input (cs "/")).1.Nodup
      ∧ (convert_to_flattened_csv c7Input (cs "/")).2.length = c7Input.length
      ∧ (∀ row ∈ (convert_to_flattened_csv c7Input (cs "/")).2,
          row.length = (convert_to_flattened_csv c7Input (cs "/")).1.length)
      ∧ (∀ (i : Nat) (hi : i < c7Input.length)
          (hi2 : i < (convert_to_flattened_csv c7Input (cs "/")).2.length)
          (j : Nat) (hj : j < (convert_to_flattened_csv c7Input (cs "/")).1.length)
          (hj2 : j < ((convert_to_flattened_csv c7Input (cs "/")).2.get ⟨i, hi2⟩).length),
          dictMem (flatten_json (c7Input.get ⟨i, hi⟩) (cs "/"))
              ((convert_to_flattened_csv c7Input (cs "/")).1.get ⟨j, hj⟩) = false →
            ((convert_to_flattened_csv c7Input (cs "/")).2.get ⟨i, hi2⟩).get ⟨j, hj2⟩
              = [])) :=
  ⟨rfl, c7_flattened_columns c7Input (cs "/")⟩

/-- A Python argument value as seen by the `secure_paths` decorator
(utils.py:12-43): only string values are path-checked, every other type is
ignored. -/
inductive PyVal where
  | str (s : Str)
  | other

/-- The bound arguments of one call: parameter name paired with value, as
produced by `sig.bind`. -/
abbrev BoundArgs := List (Str × PyVal)

/-- `needle in hay` for Python strings (substring containment). -/
def hasSubstr (needle : Str) : Str → Bool
  | [] => needle.isEmpty
  | c :: rest => needle.isPrefixOf (c :: rest) || hasSubstr needle rest

/-- `'path' in param_name.lower()` (utils.py:33). -/
def pathParam (name : Str) : Bool :=
  hasSubstr (cs "path") (name.map Char.toLower)

/-- The OS path separator (`os.sep` on the POSIX systems the tests run on). -/
def osSep : Char := '/'

/-- The environment of one call: the two safe directories
(`os.path.abspath(os.getcwd())` and `os.path.abspath(tempfile.gettempdir())`)
and the operating system's `os.path.abspath` resolution, which is outside the
program and is taken as a parameter. -/
structure PathEnv where
  cwd : Str
  tmp : Str
  abspath : Str → Str

/-- `abs_path == safe_dir or abs_path.startswith(safe_dir + os.sep)`
(utils.py:37). -/
def inSafeDir (dir absPath : Str) : Bool :=
  decide (absPath = dir) || (dir ++ [osSep]).isPrefixOf absPath

/-- Whether a string argument's resolved path lies in some safe directory. -/
def isSafePath (env : PathEnv) (value : Str) : Bool :=
  inSafeDir env.cwd (env.abspath value) || inSafeDir env.tmp (env.abspath value)

/-- One argument triggers the security `ValueError`: its parameter name
contains `path`, its value is a string, and the resolved path is outside
every safe directory (utils.py:31-39). -/
def badPathArg (env : PathEnv) (arg : Str × PyVal) : Bool :=
  pathParam arg.1 && (match arg.2 with
    | .str s => !(isSafePath env s)
    | .other => false)

/-- The message of the security error (the Python message also interpolates
the offending value; the claims only concern that a `ValueError` is raised). -/
def secErrMsg : String := "ValueError: Security error: Path points outside allowed directories"

/-- The `secure_paths` decorator (utils.py:12-43): check every bound argument
before calling the wrapped function `f`; raise `ValueError` if any path-named
string argument is outside the safe directories, otherwise run `f`.  `f`
stands for the wrapped function body, including all of its file I/O. -/
def secure_paths {β : Type} (env : PathEnv) (f : BoundArgs → Except String β)
    (args : BoundArgs) : Except String β :=
  if args.any (badPathArg env) then .error secErrMsg
  else f args

/-- The decorated `read_json(file_path)` (converter.py:14-15): the parsed file
content stands in for the file read, which only happens inside `f`. -/
def read_json_entry (env : PathEnv) (filePath : Str) (parsed : Json) :
    Except String (List Json) :=
  secure_paths env (fun _ => read_json parsed) [(cs "file_path", .str filePath)]

/-- The decorated `convert_to_flattened_csv(json_data, output_path, separator)`
(converter.py:74-75). -/
def convert_to_flattened_csv_entry (env : PathEnv) (jd : List Obj)
    (outputPath : Str) (sep : Str) : Except String (List Str × List (List Str)) :=
  secure_paths env (fun _ => .ok (convert_to_flattened_csv jd sep))
    [(cs "json_data", .other), (cs "output_path", .str outputPath),
     (cs "separator", .str sep)]

/-- The decorated `convert_to_normalized_csvs(json_data, output_dir)`
(converter.py:156-157).  Note the parameter is named `output_dir`. -/
def convert_to_normalized_csvs_entry (env : PathEnv) (jd : List Obj)
    (outputDir : Str) : Except String (List (Str × List Row)) :=
  secure_paths env (fun _ => .ok (convert_to_normalized_csvs jd))
    [(cs "json_data", .other), (cs "output_dir", .str outputDir)]

/-- The decorated `write_csv(file_path, data)` (converter.py:217-218). -/
def write_csv_entry (env : PathEnv) (filePath : Str) (data : List Row) :
    Except String (Option (List Str × List (List Str))) :=
  secure_paths env (fun _ => .ok (write_csv data))
    [(cs "file_path", .str filePath), (cs "data", .other)]

theorem secure_paths_blocks {β : Type} (env : PathEnv)
    (f : BoundArgs → Except String β) (args : BoundArgs) (name s : Str)
    (hmem : (name, PyVal.str s) ∈ args) (hname : pathParam name = true)
    (hbad : isSafePath env s = false) :
    secure_paths env f args = .error secErrMsg := by
  unfold secure_paths
  have hany : args.any (badPathArg env) = true := by
    rw [List.any_eq_true]
    refine ⟨(name, PyVal.str s), hmem, ?_⟩
    simp [badPathArg, hname, hbad]
  rw [hany]
  rfl

/-- C10 confirmed: the `secure_paths` decorator raises `ValueError` before the
wrapped function runs — the result is the same error term for every wrapped
body `f`, so no file is read or written — whenever some string argument whose
parameter name contains `path` resolves outside both the working directory
and the temp directory.  This covers `read_json` (`file_path`),
`convert_to_flattened_csv` (`output_path`) and `write_csv` (`file_path`).
`convert_to_normalized_csvs` has no parameter whose name contains `path`
(its parameter is `output_dir`), so the claim holds for it vacuously: the
decorator never rejects it, as the last conjunct shows. -/
theorem c10_secure_paths_guard (env : PathEnv) :
    (∀ (β : Type) (f : BoundArgs → Except String β) (args : BoundArgs)
        (name s : Str), (name, PyVal.str s) ∈ args → pathParam name = true →
        isSafePath env s = false → secure_paths env f args = .error secErrMsg)
    ∧ (∀ (filePath : Str) (parsed : Json), isSafePath env filePath = false →
        read_json_entry env filePath parsed = .error secErrMsg)
    ∧ (∀ (jd : List Obj) (outputPath sep : Str), isSafePath env outputPath = false →
        convert_to_flattened_csv_entry env jd outputPath sep = .error secErrMsg)
    ∧ (∀ (filePath : Str) (data : List Row), isSafePath env filePath = false →
        write_csv_entry env filePath data = .error secErrMsg)
    ∧ (∀ (jd : List Obj) (outputDir : Str),
        convert_to_normalized_csvs_entry env jd outputDir
          = .ok (convert_to_normalized_csvs jd)) := by
  refine ⟨?_, ?_, ?_, ?_, ?_⟩
  · intro β f args name s hmem hname hbad
    exact secure_paths_blocks env f args name s hmem hname hbad
  · intro filePath parsed hbad
    exact secure_paths_blocks env _ _ (cs "file_path") filePath
      (List.mem_cons_self _ _) (by decide) hbad
  · intro jd outputPath sep hbad
    exact secure_paths_blocks env _ _ (cs "output_path") outputPath
      (List.mem_cons_of_mem _ (List.mem_cons_self _ _)) (by decide) hbad
  · intro filePath data hbad
    exact secure_paths_blocks env _ _ (cs "file_path") filePath
      (List.mem_cons_self _ _) (by decide) hbad
  · intro jd outputDir
    unfold convert_to_normalized_csvs_entry secure_paths
    have h1 : badPathArg env (cs "json_data", PyVal.other) = false := by
      simp [badPathArg]
    have h2 : badPathArg env (cs "output_dir", PyVal.str outputDir) = false := by
      have hp : pathParam (cs "output_dir") = false := by decide
      simp [badPathArg, hp]
    rw [List.any_cons, List.any_cons, List.any_nil, h1, h2]
    rfl

/-- A concrete environment for the C10 witness: working directory `/work`,
temp directory `/tmp`, and identity resolution (the value is already an
absolute normalized path). -/
def wEnv : PathEnv := ⟨cs "/work", cs "/tmp", fun s => s⟩

/-- Witness for C10: `/etc/passwd` resolves outside both safe directories and
`read_json` is blocked with the security `ValueError` before any read. -/
theorem c10_secure_paths_guard_witness :
    isSafePath wEnv (cs "/etc/passwd") = false
    ∧ read_json_entry wEnv (cs "/etc/passwd") .null = .error secErrMsg :=
  ⟨by decide,
   (c10_secure_paths_guard wEnv).2.1 (cs "/etc/passwd") .null (by decide)⟩

mutual
/-- No arrays anywhere in a value (the scope of the flatten round-trip
claim). -/
def noArrays : Json → Bool
  | .arr _ => false
  | .obj fields => noArraysFields fields
  | _ => true

/-- No arrays in any value of an object. -/
def noArraysFields : List (Str × Json) → Bool
  | [] => true
  | (_, v) :: rest => noArrays v && noArraysFields rest
end

mutual
/-- No key anywhere in a value contains the character `c`. -/
def keysAvoid (c : Char) : Json → Bool
  | .obj fields => keysAvoidFields c fields
  | .arr xs => keysAvoidElems c xs
  | _ => true

/-- No key of an object (nor of its descendants) contains `c`. -/
def keysAvoidFields (c : Char) : List (Str × Json) → Bool
  | [] => true
  | (k, v) :: rest => !(decide (c ∈ k)) && keysAvoid c v && keysAvoidFields c rest

/-- No key of any element of an array contains `c`. -/
def keysAvoidElems (c : Char) : List Json → Bool
  | [] => true
  | v :: rest => keysAvoid c v && keysAvoidElems c rest
end

mutual
/-- Well-formed value: every object has pairwise-distinct keys, as real
Python dicts do. -/
def wfJson : Json → Bool
  | .obj fields => wfFields fields
  | .arr xs => wfElems xs
  | _ => true

/-- Well-formed object: no duplicate keys, values well-formed. -/
def wfFields : List (Str × Json) → Bool
  | [] => true
  | (k, v) :: rest => !(rest.any fun p => decide (p.1 = k)) && wfJson v && wfFields rest

/-- Well-formed array: elements well-formed. -/
def wfElems : List Json → Bool
  | [] => true
  | v :: rest => wfJson v && wfElems rest
end

mutual
/-- The scalar leaves of a value with their nested key paths, in depth-first
order.  This is the reference structure of the round-trip claim; arrays are
outside the claim's scope (`noArrays`) and contribute nothing. -/
def leaves : Json → List (List Str × Json)
  | .obj fields => leavesFields fields
  | .arr _ => []
  | x => [([], x)]

/-- The scalar leaves of an object, each path prefixed by its key. -/
def leavesFields : List (Str × Json) → List (List Str × Json)
  | [] => []
  | (k, v) :: rest => (leaves v).map (fun q => (k :: q.1, q.2)) ++ leavesFields rest
end

/-- The nested key path joined with a single-character separator — the
compound column name the spec's claim is about. -/
def joinSep (c : Char) : List Str → Str
  | [] => []
  | [p] => p
  | p :: q :: rest => p ++ c :: joinSep c (q :: rest)

/-- Python `s.split(sep)` for a one-character separator. -/
def splitOnChar (c : Char) : Str → List Str
  | [] => [[]]
  | a :: rest =>
    if a = c then [] :: splitOnChar c rest
    else
      match splitOnChar c rest with
      | r :: rs => (a :: r) :: rs
      | [] => [[a]]

/-- The column name `flatten_json` produces for a leaf at path `path` when
called with prefix `pre`: at a scalar the prefix loses its final character,
below an object the path fragments are joined by the separator. -/
def nameFor (c : Char) (pre : Str) : List Str → Str
  | [] => pre.dropLast
  | p :: rest => pre ++ joinSep c (p :: rest)

example : splitOnChar '/' (cs "a/b") = [cs "a", cs "b"] := rfl

example : joinSep '/' [cs "a", cs "b"] = cs "a/b" := rfl

theorem splitOnChar_of_not_mem {c : Char} : ∀ {p : Str}, ¬ c ∈ p →
    splitOnChar c p = [p]
  | [], _ => rfl
  | a :: rest, h => by
    have hne : ¬ a = c := fun he => h (he ▸ List.mem_cons_self a rest)
    have ih := splitOnChar_of_not_mem (fun hm => h (List.mem_cons_of_mem a hm))
    unfold splitOnChar
    rw [if_neg hne, ih]

theorem splitOnChar_append_cons {c : Char} : ∀ {p : Str} (t : Str), ¬ c ∈ p →
    splitOnChar c (p ++ c :: t) = p :: splitOnChar c t
  | [], t, _ => by
    show splitOnChar c (c :: t) = [] :: splitOnChar c t
    simp only [splitOnChar]
    rw [if_pos trivial]
  | a :: p2, t, h => by
    have hne : ¬ a = c := fun he => h (he ▸ List.mem_cons_self a p2)
    have ih := splitOnChar_append_cons t (fun hm => h (List.mem_cons_of_mem a hm))
    show splitOnChar c (a :: (p2 ++ c :: t)) = (a :: p2) :: splitOnChar c t
    simp only [splitOnChar]
    rw [if_neg hne, ih]

theorem splitOnChar_joinSep {c : Char} : ∀ (ps : List Str), ps ≠ [] →
    (∀ p ∈ ps, ¬ c ∈ p) → splitOnChar c (joinSep c ps) = ps
  | [], h, _ => absurd rfl h
  | [p], _, h => by
    show splitOnChar c p = [p]
    exact splitOnChar_of_not_mem (h p (List.mem_singleton.mpr rfl))
  | p :: q :: rest, _, h => by
    show splitOnChar c (p ++ c :: joinSep c (q :: rest)) = p :: q :: rest
    rw [splitOnChar_append_cons _ (h p (List.mem_cons_self _ _))]
    rw [splitOnChar_joinSep (q :: rest) (List.cons_ne_nil q rest)
      (fun x hx => h x (List.mem_cons_of_mem p hx))]

theorem joinSep_inj {c : Char} {ps qs : List Str} (hps : ps ≠ []) (hqs : qs ≠ [])
    (h1 : ∀ p ∈ ps, ¬ c ∈ p) (h2 : ∀ p ∈ qs, ¬ c ∈ p)
    (heq : joinSep c ps = joinSep c qs) : ps = qs := by
  rw [← splitOnChar_joinSep ps hps h1, ← splitOnChar_joinSep qs hqs h2, heq]

theorem map_self_of_eq {α : Type} {l : List α} {f : α → α}
    (h : ∀ x ∈ l, f x = x) : l.map f = l := by
  induction l with
  | nil => rfl
  | cons a rest ih =>
    rw [List.map_cons, h a (List.mem_cons_self _ _),
      ih fun x hx => h x (List.mem_cons_of_mem _ hx)]

theorem dictMem_append {α : Type} (d1 d2 : List (Str × α)) (k : Str) :
    dictMem (d1 ++ d2) k = (dictMem d1 k || dictMem d2 k) := by
  cases hd : dictget d1 k with
  | some v =>
    rw [dictMem, dictget_append_of_isSome d2 hd]
    rw [dictMem, hd]
    rfl
  | none =>
    rw [dictMem, dictget_append_of_none d2 hd]
    rw [dictMem, hd]
    rfl

theorem dictSet_of_not_mem {α : Type} {d : List (Str × α)} {k : Str} (v : α)
    (h : dictMem d k = false) : dictSet d k v = d ++ [(k, v)] := by
  unfold dictSet
  rw [h]
  rfl

theorem scalarName (pre : Str) :
    (if pre.isEmpty then pre else pre.dropLast) = pre.dropLast := by
  cases pre with
  | nil => rfl
  | cons a rest => rfl

theorem nameFor_child (c : Char) (pre k : Str) :
    ∀ (p : List Str), nameFor c (pre ++ k ++ [c]) p = pre ++ joinSep c (k :: p)
  | [] => by
    show (pre ++ k ++ [c]).dropLast = pre ++ k
    exact List.dropLast_concat
  | x :: xs => by
    show pre ++ k ++ [c] ++ joinSep c (x :: xs) = pre ++ (k ++ c :: joinSep c (x :: xs))
    rw [List.append_assoc, List.append_assoc, List.singleton_append]

theorem leavesFields_head : ∀ (fields : List (Str × Json)),
    ∀ q ∈ leavesFields fields, ∃ k2 p2, q.1 = k2 :: p2 ∧ ∃ v2, (k2, v2) ∈ fields
  | [], q, hq => absurd hq (List.not_mem_nil q)
  | (k, v) :: rest, q, hq => by
    rcases List.mem_append.mp hq with hm | hm
    · rcases List.mem_map.mp hm with ⟨q0, _, heq⟩
      exact ⟨k, q0.1, by rw [← heq], v, List.mem_cons_self _ _⟩
    · rcases leavesFields_head rest q hm with ⟨k2, p2, heq, v2, hmem⟩
      exact ⟨k2, p2, heq, v2, List.mem_cons_of_mem _ hmem⟩

theorem leavesFields_path_ne_nil {fields : List (Str × Json)} {q : List Str × Json}
    (hq : q ∈ leavesFields fields) : q.1 ≠ [] := by
  rcases leavesFields_head fields q hq with ⟨k2, p2, heq, _⟩
  rw [heq]
  exact List.cons_ne_nil k2 p2

mutual
theorem leaves_parts_avoid (c : Char) : ∀ (v : Json), keysAvoid c v = true →
    ∀ q ∈ leaves v, ∀ part ∈ q.1, ¬ c ∈ part
  | .obj fields, hka, q, hq, part, hp =>
    leavesFields_parts_avoid c fields hka q hq part hp
  | .arr xs, _, q, hq, _, _ => absurd hq (List.not_mem_nil q)
  | .null, _, q, hq, part, hp => by
    rw [List.mem_singleton.mp hq] at hp
    exact absurd hp (List.not_mem_nil part)
  | .bool b, _, q, hq, part, hp => by
    rw [List.mem_singleton.mp hq] at hp
    exact absurd hp (List.not_mem_nil part)
  | .num n, _, q, hq, part, hp => by
    rw [List.mem_singleton.mp hq] at hp
    exact absurd hp (List.not_mem_nil part)
  | .str t, _, q, hq, part, hp => by
    rw [List.mem_singleton.mp hq] at hp
    exact absurd hp (List.not_mem_nil part)

theorem leavesFields_parts_avoid (c : Char) :
    ∀ (fields : List (Str × Json)), keysAvoidFields c fields = true →
    ∀ q ∈ leavesFields fields, ∀ part ∈ q.1, ¬ c ∈ part
  | [], _, q, hq, _, _ => absurd hq (List.not_mem_nil q)
  | (k, v) :: rest, hka, q, hq, part, hp => by
    rw [keysAvoidFields, Bool.and_assoc, Bool.and_eq_true] at hka
    rcases hka with ⟨hk, hka2⟩
    rw [Bool.and_eq_true] at hka2
    rcases hka2 with ⟨hv, hrest⟩
    rcases List.mem_append.mp hq with hm | hm
    · rcases List.mem_map.mp hm with ⟨q0, hq0, heq⟩
      rw [← heq] at hp
      rcases List.mem_cons.mp hp with hpk | hp2
      · rw [hpk]
        rw [Bool.not_eq_true', decide_eq_false_iff_not] at hk
        exact hk
      · exact leaves_parts_avoid c v hv q0 hq0 part hp2
    · exact leavesFields_parts_avoid c rest hrest q hm part hp
end

mutual
/-- On array-free, well-formed values whose keys avoid the one-character
separator, `_flatten` appends exactly one binding per scalar leaf, named by
the joined key path, in depth-first order. -/
theorem flattenAux_leaves (c : Char) :
    ∀ (v : Json) (pre : Str) (res : List (Str × Json)),
      noArrays v = true → keysAvoid c v = true → wfJson v = true →
      (∀ q ∈ leaves v, dictMem res (nameFor c pre q.1) = false) →
      flattenAux [c] v pre res
        = res ++ (leaves v).map fun q => (nameFor c pre q.1, q.2)
  | .obj fields, pre, res, hna, hka, hwf, hfresh => by
    have hfresh2 : ∀ q ∈ leavesFields fields,
        dictMem res (pre ++ joinSep c q.1) = false := by
      intro q hq
      have hf := hfresh q hq
      rcases leavesFields_head fields q hq with ⟨k2, p2, heq, _⟩
      rw [heq] at hf ⊢
      exact hf
    have hmain := flattenObjAux_leaves c fields pre res hna hka hwf hfresh2
    show flattenObjAux [c] fields pre res = _
    rw [hmain]
    congr 1
    apply List.map_congr_left
    intro q hq
    rcases leavesFields_head fields q hq with ⟨k2, p2, heq, _⟩
    rw [heq]
    rfl
  | .arr xs, pre, res, hna, _, _, _ => absurd hna (by simp [noArrays])
  | .null, pre, res, _, _, _, hfresh => by
    show dictSet res (if pre.isEmpty then pre else pre.dropLast) Json.null
      = res ++ [(pre.dropLast, Json.null)]
    rw [scalarName]
    exact dictSet_of_not_mem _ (hfresh ([], .null) (List.mem_singleton.mpr rfl))
  | .bool b, pre, res, _, _, _, hfresh => by
    show dictSet res (if pre.isEmpty then pre else pre.dropLast) (Json.bool b)
      = res ++ [(pre.dropLast, Json.bool b)]
    rw [scalarName]
    exact dictSet_of_not_mem _ (hfresh ([], .bool b) (List.mem_singleton.mpr rfl))
  | .num n, pre, res, _, _, _, hfresh => by
    show dictSet res (if pre.isEmpty then pre else pre.dropLast) (Json.num n)
      = res ++ [(pre.dropLast, Json.num n)]
    rw [scalarName]
    exact dictSet_of_not_mem _ (hfresh ([], .num n) (List.mem_singleton.mpr rfl))
  | .str t, pre, res, _, _, _, hfresh => by
    show dictSet res (if pre.isEmpty then pre else pre.dropLast) (Json.str t)
      = res ++ [(pre.dropLast, Json.str t)]
    rw [scalarName]
    exact dictSet_of_not_mem _ (hfresh ([], .str t) (List.mem_singleton.mpr rfl))

/-- Object case of `flattenAux_leaves`, one field at a time. -/
theorem flattenObjAux_leaves (c : Char) :
    ∀ (fields : List (Str × Json)) (pre : Str) (res : List (Str × Json)),
      noArraysFields fields = true → keysAvoidFields c fields = true →
      wfFields fields = true →
      (∀ q ∈ leavesFields fields, dictMem res (pre ++ joinSep c q.1) = false) →
      flattenObjAux [c] fields pre res
        = res ++ (leavesFields fields).map fun q => (pre ++ joinSep c q.1, q.2)
  | [], pre, res, _, _, _, _ => by
    show res = res ++ ([] : List (List Str × Json)).map _
    rw [List.map_nil, List.append_nil]
  | (k, v) :: rest, pre, res, hna, hka, hwf, hfresh => by
    simp only [noArraysFields, Bool.and_eq_true] at hna
    simp only [keysAvoidFields, Bool.and_eq_true] at hka
    simp only [wfFields, Bool.and_eq_true] at hwf
    rcases hna with ⟨hna_v, hna_rest⟩
    rcases hka with ⟨⟨hka_k, hka_v⟩, hka_rest⟩
    rcases hwf with ⟨⟨hwf_k, hwf_v⟩, hwf_rest⟩
    have hck : ¬ c ∈ k := by
      rw [Bool.not_eq_true', decide_eq_false_iff_not] at hka_k
      exact hka_k
    have hknotrest : ∀ kv ∈ rest, kv.1 ≠ k := by
      intro kv hm he
      rw [Bool.not_eq_true'] at hwf_k
      rw [List.any_eq_false] at hwf_k
      have := hwf_k kv hm
      rw [he] at this
      simp at this
    have hfresh_v : ∀ q ∈ leaves v,
        dictMem res (nameFor c (pre ++ k ++ [c]) q.1) = false := by
      intro q hq
      rw [nameFor_child]
      have hmem : (k :: q.1, q.2) ∈ leavesFields ((k, v) :: rest) := by
        show _ ∈ (leaves v).map (fun q => (k :: q.1, q.2)) ++ leavesFields rest
        exact List.mem_append_left _ (List.mem_map_of_mem _ hq)
      exact hfresh (k :: q.1, q.2) hmem
    have hinner := flattenAux_leaves c v (pre ++ k ++ [c]) res hna_v hka_v hwf_v hfresh_v
    have hinner2 : flattenAux [c] v (pre ++ k ++ [c]) res
        = res ++ (leaves v).map fun q => (pre ++ joinSep c (k :: q.1), q.2) := by
      rw [hinner]
      congr 1
      apply List.map_congr_left
      intro q _
      rw [nameFor_child]
    have hfresh_rest : ∀ q ∈ leavesFields rest,
        dictMem (res ++ (leaves v).map fun q => (pre ++ joinSep c (k :: q.1), q.2))
          (pre ++ joinSep c q.1) = false := by
      intro q hq
      rw [dictMem_append, Bool.or_eq_false_iff]
      constructor
      · exact hfresh q (List.mem_append_right _ hq)
      · rw [← Bool.not_eq_true, dictMem_true_iff]
        intro ⟨kv, hkv, hkey⟩
        rcases List.mem_map.mp hkv with ⟨q0, hq0, heq0⟩
        rw [← heq0] at hkey
        have hjoin : joinSep c (k :: q0.1) = joinSep c q.1 :=
          List.append_cancel_left hkey
        rcases leavesFields_head rest q hq with ⟨k2, p2, heq2, v2, hv2⟩
        have hpaths : k :: q0.1 = q.1 := by
          apply joinSep_inj (List.cons_ne_nil _ _) (leavesFields_path_ne_nil hq)
            ?_ ?_ hjoin
          · intro p hp
            rcases List.mem_cons.mp hp with hpe | hpm
            · rw [hpe]
              exact hck
            · exact leaves_parts_avoid c v hka_v q0 hq0 p hpm
          · exact leavesFields_parts_avoid c rest hka_rest q hq
        rw [heq2] at hpaths
        have hk2 : k2 = k := (List.cons.inj hpaths).1.symm
        exact hknotrest (k2, v2) hv2 (by rw [hk2])
    have hrest := flattenObjAux_leaves c rest pre
      (res ++ (leaves v).map fun q => (pre ++ joinSep c (k :: q.1), q.2))
      hna_rest hka_rest hwf_rest hfresh_rest
    show flattenObjAux [c] rest pre (flattenAux [c] v (pre ++ k ++ [c]) res) = _
    rw [hinner2, hrest, List.append_assoc]
    congr 1
    show _ = (leavesFields ((k, v) :: rest)).map _
    simp only [leavesFields]
    rw [List.map_append, List.map_map]
    rfl
end

/-- C8 amended: for a record (well-formed Python dict) containing no arrays,
whose keys at every depth avoid the separator character, flattening with a
one-character separator and then splitting each column name on that character
reconstructs exactly the nested key paths of the scalar leaves, in
depth-first order, with the leaf values attached. -/
theorem c8_flatten_roundtrip (record : Obj) (c : Char)
    (hna : noArraysFields record = true)
    (hka : keysAvoidFields c record = true)
    (hwf : wfFields record = true) :
    (flatten_json record [c]).map (fun p => (splitOnChar c p.1, p.2))
      = leavesFields record := by
  have hmain := flattenObjAux_leaves c record [] [] hna hka hwf (fun q _ => rfl)
  show (flattenObjAux [c] record [] []).map _ = _
  rw [hmain, List.nil_append, List.map_map]
  apply map_self_of_eq
  intro q hq
  show (splitOnChar c ([] ++ joinSep c q.1), q.2) = q
  rw [List.nil_append,
    splitOnChar_joinSep q.1 (leavesFields_path_ne_nil hq)
      (leavesFields_parts_avoid c record hka q hq)]

/-- Witness record for the amended C8: one nested object, one top scalar. -/
def c8WInput : Obj := [(cs "a", .obj [(cs "b", .num 3)]), (cs "t", .num 4)]

/-- Witness for the amended C8 at `c8WInput` with separator `/`. -/
theorem c8_flatten_roundtrip_witness :
    noArraysFields c8WInput = true
    ∧ keysAvoidFields '/' c8WInput = true
    ∧ wfFields c8WInput = true
    ∧ (flatten_json c8WInput ['/']).map (fun p => (splitOnChar '/' p.1, p.2))
        = leavesFields c8WInput :=
  ⟨rfl, by decide, by decide, c8_flatten_roundtrip c8WInput '/' rfl (by decide) (by decide)⟩

/-- C8 counterexample input: a key that itself contains the separator. -/
def c8Input : Obj := [(cs "a/b", .num 1)]

/-- C8 is false as stated (for arbitrary records): when a key contains the
separator, splitting the column name over-splits — the single leaf at path
`["a/b"]` comes back as `["a", "b"]`. -/
theorem c8_counterexample :
    (flatten_json c8Input (cs "/")).map (fun p => splitOnChar '/' p.1)
      = [[cs "a", cs "b"]]
    ∧ (leavesFields c8Input).map (fun q => q.1) = [[cs "a/b"]]
    ∧ (flatten_json c8Input (cs "/")).map (fun p => splitOnChar '/' p.1)
        ≠ (leavesFields c8Input).map (fun q => q.1) :=
  ⟨rfl, rfl, by decide⟩
